import Mathlib

/-!
# Verification of the linux-speech-tools text chunking engine

Shallow embedding of the chunking core of the repository
(`src/chunking/gold_standard_chunker.py`, `src/chunking/smart_chunking.py`,
`src/chunking/tts_optimized_chunking.py`, `analysis/precise_chunker.py`)
together with proofs and refutations of the specification claims.

Texts are embedded as `List Char` (Python `str`).  Python regular
expressions used by the chunkers are embedded as hand-written matcher
functions that mirror the backtracking semantics of each concrete pattern
(all the patterns involved are simple enough that leftmost scanning with
per-position matching reproduces `re.finditer` / `re.split` / `re.sub`
exactly; each matcher carries a doc comment naming its source pattern).
Python `while` loops whose progress depends on run-time values are embedded
with an explicit fuel parameter and return `Option`, `none` standing for
non-termination; structurally terminating code is embedded totally.
Python floats (the single `len(sentence) * 0.6` constant) are embedded as
exact rational comparisons, scaled to integers.
-/

set_option maxHeartbeats 1000000
set_option maxRecDepth 100000

namespace SpeechTools

/-- Texts are Python strings, embedded as lists of characters. -/
abbrev Str := List Char

/-- Python `str.isspace` / `\s` for the characters relevant here
(space, tab, newline, carriage return, vertical tab, form feed). -/
def isSpace (c : Char) : Bool :=
  c = ' ' || c = '\t' || c = '\n' || c = '\r' || c = '\x0b' || c = '\x0c'

/-- Python regex word character `\w` (ASCII letters, digits, underscore,
plus the Latin accented letters that occur in this code base's data). -/
def isWordChar (c : Char) : Bool :=
  c.isAlphanum || c = '_' ||
  c ∈ ['á','é','í','ó','ú','ñ','ü','Á','É','Í','Ó','Ú','Ñ','Ü']

/-- ASCII lower-casing, as used on the pure-ASCII word lists. -/
def lowerC (c : Char) : Char := c.toLower

/-- Python `str.lower()` (ASCII approximation; the word lists compared
against are pure ASCII). -/
def lowerS (s : Str) : Str := s.map lowerC

/-- Python `str.lstrip()`. -/
def pyLstrip (s : Str) : Str := s.dropWhile (isSpace ·)

/-- Python `str.rstrip()`. -/
def pyRstrip (s : Str) : Str := (s.reverse.dropWhile (isSpace ·)).reverse

/-- Python `str.strip()`. -/
def pyStrip (s : Str) : Str := pyRstrip (pyLstrip s)

/-- Python truthiness of a string after `strip` - `bool(s.strip())`. -/
def stripNonEmpty (s : Str) : Bool := !(pyStrip s).isEmpty

/-- `sep.join(parts)`. -/
def joinSep (sep : Str) : List Str → Str
  | [] => []
  | [s] => s
  | s :: rest => s ++ sep ++ joinSep sep rest

/-- Python `str.split()` with no argument: split on whitespace runs,
dropping empty fields. -/
def pySplitWsAux : Str → Str → List Str
  | cur, [] => if cur.isEmpty then [] else [cur.reverse]
  | cur, c :: cs =>
    if isSpace c then
      if cur.isEmpty then pySplitWsAux [] cs
      else cur.reverse :: pySplitWsAux [] cs
    else pySplitWsAux (c :: cur) cs

/-- Python `str.split()` with no argument. -/
def pySplitWs (s : Str) : List Str := pySplitWsAux [] s

/-- `' '.join(text.split())`, the whitespace normalization used by the
smart and TTS chunkers. -/
def normalizeWs (s : Str) : Str := joinSep [' '] (pySplitWs s)

/-- Does `pat` occur as a prefix of `s`? -/
def startsL : Str → Str → Bool
  | [], _ => true
  | _ :: _, [] => false
  | p :: ps, c :: cs => p = c && startsL ps cs

/-- Case-insensitive (ASCII) prefix test; `pat` is given in lowercase. -/
def startsCI (pat s : Str) : Bool := startsL pat (lowerS (s.take pat.length))

/-- Does `pat` occur as a substring of `s`? (Python `pat in s`.) -/
def containsSub (pat : Str) : Str → Bool
  | [] => startsL pat []
  | c :: cs => startsL pat (c :: cs) || containsSub pat cs

/-- Python `s.replace(old, new)` (all occurrences, left to right,
non-overlapping), with fuel; `old` is never empty at the call sites. -/
def replaceAllF : Nat → Str → Str → Str → Str
  | 0, s, _, _ => s
  | _ + 1, [], _, _ => []
  | fuel + 1, c :: cs, old, new =>
    if old.isEmpty then c :: cs
    else if startsL old (c :: cs) then
      new ++ replaceAllF fuel ((c :: cs).drop old.length) old new
    else c :: replaceAllF fuel cs old new

/-- Python `s.replace(old, new)`. -/
def replaceAll (s old new : Str) : Str := replaceAllF (s.length + 1) s old new

/-- Python `s.replace(old, new, 1)` (first occurrence only). -/
def replaceOne : Str → Str → Str → Str
  | [], _, _ => []
  | c :: cs, old, new =>
    if old.isEmpty then c :: cs
    else if startsL old (c :: cs) then new ++ (c :: cs).drop old.length
    else c :: replaceOne cs old new

/-- Python `s.rfind(' ', 0, hi)`: index of the last space at an index
`< hi`, or `none`. -/
def rfindSpaceBefore (s : Str) (hi : Nat) : Option Nat :=
  ((s.take hi).enum.filter (fun p => isSpace p.2)).getLast?.map (·.1)

/-- Length of the maximal prefix run of characters satisfying `p`. -/
def runLen (p : Char → Bool) (s : Str) : Nat := (s.takeWhile p).length

/-! ## Regex scanning

A `Matcher` receives the character immediately preceding the current
position (`none` at the start of the text, for `\b` checks) and the rest
of the text from the current position on (so lookaheads can see past the
match), and returns the capture-group lengths plus the total match length
when the pattern matches at this position.  `scanF` is `re.finditer`:
leftmost scanning, advancing past each (necessarily non-empty) match. -/

/-- A regex match at one position: lengths of the capture groups (always
contiguous prefixes of the match in the patterns embedded here) and of the
whole match. -/
structure MRes where
  groups : List Nat
  tot : Nat
  deriving Repr, DecidableEq

abbrev Matcher := Option Char → Str → Option MRes

/-- One found match: the unmatched piece before it, its capture-group
strings, and the whole matched string. -/
structure MatchData where
  pre : Str
  groups : List Str
  tot : Str
  deriving Repr, DecidableEq

/-- Slice the group strings out of a match prefix. -/
def sliceGroups : List Nat → Str → List Str
  | [], _ => []
  | n :: ns, s => s.take n :: sliceGroups ns (s.drop n)

/-- `re.finditer` driver: returns the list of matches (with the unmatched
piece preceding each) and the final unmatched piece.  A zero-length match
result is treated as no match (none of the embedded patterns can match the
empty string). -/
def scanF (m : Matcher) : Nat → Option Char → Str → List MatchData × Str
  | 0, _, s => ([], s)
  | _ + 1, _, [] => ([], [])
  | fuel + 1, prev, c :: cs =>
    match m prev (c :: cs) with
    | some r =>
      if r.tot = 0 then
        let (ms, fin) := scanF m fuel (some c) cs
        consPre c ms fin
      else
        let tot := (c :: cs).take r.tot
        let rest := (c :: cs).drop r.tot
        let (ms, fin) := scanF m fuel tot.getLast? rest
        (⟨[], sliceGroups r.groups tot, tot⟩ :: ms, fin)
    | none =>
      let (ms, fin) := scanF m fuel (some c) cs
      consPre c ms fin
where
  /-- Prepend a character to the first piece of a scan result. -/
  consPre (c : Char) (ms : List MatchData) (fin : Str) :
      List MatchData × Str :=
    match ms with
    | [] => ([], c :: fin)
    | md :: ms => (⟨c :: md.pre, md.groups, md.tot⟩ :: ms, fin)

/-- Scan a whole text from its start. -/
def scan (m : Matcher) (s : Str) : List MatchData × Str :=
  scanF m (s.length + 1) none s

/-- All matches of `m` in `s` (`re.finditer` / `re.findall`). -/
def findAll (m : Matcher) (s : Str) : List MatchData := (scan m s).1

/-- `re.search(m, s) is not None`. -/
def searchB (m : Matcher) (s : Str) : Bool := !(findAll m s).isEmpty

/-- `re.split(pattern, s)` for a pattern without capture groups:
just the unmatched pieces. -/
def splitNoGroups (m : Matcher) (s : Str) : List Str :=
  let (ms, fin) := scan m s
  ms.map (·.pre) ++ [fin]

/-- `re.split(pattern, s)` for a pattern with capture groups: the
unmatched pieces interleaved with every group of every match. -/
def splitGroups (m : Matcher) (s : Str) : List Str :=
  let (ms, fin) := scan m s
  (ms.map (fun md => md.pre :: md.groups)).flatten ++ [fin]

/-- Reassemble a scan result into the original text. -/
def flattenScan (ms : List MatchData) (fin : Str) : Str :=
  (ms.map (fun md => md.pre ++ md.tot)).flatten ++ fin

/-- Match start positions, as produced by `match.start()` on the
successive elements of `re.finditer`. -/
def matchStarts (ms : List MatchData) : List (Nat × MatchData) :=
  (ms.foldl (fun (acc : Nat × List (Nat × MatchData)) md =>
    (acc.1 + md.pre.length + md.tot.length,
     acc.2 ++ [(acc.1 + md.pre.length, md)])) (0, [])).2

/-! ## Matchers for the concrete regex patterns of the chunkers -/

/-- `\b` before a pattern that starts with a word character: the previous
character must be absent or a non-word character. -/
def noWordBefore : Option Char → Bool
  | none => true
  | some c => !isWordChar c

/-- `\b` after a pattern that ends with a word character. -/
def wordBoundaryAfter : Str → Bool
  | [] => true
  | c :: _ => !isWordChar c

def isUpperAZ (c : Char) : Bool := 'A' ≤ c && c ≤ 'Z'

/-- Backtracking over a regex alternation `(a1|a2|...)`: try the
alternatives in order; `k` receives the alternative's length and the text
after it and decides whether the remainder of the pattern matches. -/
def tryAlts (alts : List Str) (s : Str) (k : Nat → Str → Option MRes) :
    Option MRes :=
  match alts with
  | [] => none
  | a :: rest =>
    if startsL a s then
      match k a.length (s.drop a.length) with
      | some r => some r
      | none => tryAlts rest s k
    else tryAlts rest s k

/-- Case-insensitive (`re.IGNORECASE`) alternation; the alternatives are
given in lowercase. -/
def tryAltsCI (alts : List Str) (s : Str) (k : Nat → Str → Option MRes) :
    Option MRes :=
  match alts with
  | [] => none
  | a :: rest =>
    if startsCI a s then
      match k a.length (s.drop a.length) with
      | some r => some r
      | none => tryAltsCI rest s k
    else tryAltsCI rest s k

/-- `[.!?]`. -/
def isPunctSE (c : Char) : Bool := c = '.' || c = '!' || c = '?'

/-! ### GoldStandardChunker.abbreviations -/

/-- English pattern 0: `\b(Dr|Mr|Mrs|Ms|Prof|Sr|Jr)\.`. -/
def mAbbrevTitleEn : Matcher := fun prev s =>
  if noWordBefore prev then
    tryAlts ["Dr".toList, "Mr".toList, "Mrs".toList, "Ms".toList,
             "Prof".toList, "Sr".toList, "Jr".toList] s (fun n rest =>
      match rest with
      | '.' :: _ => some ⟨[n], n + 1⟩
      | _ => none)
  else none

/-- English pattern 1: `\b(Ph\.D|M\.D|B\.A|M\.A|B\.S|M\.S)\.?`. -/
def mAbbrevDegree : Matcher := fun prev s =>
  if noWordBefore prev then
    tryAlts ["Ph.D".toList, "M.D".toList, "B.A".toList, "M.A".toList,
             "B.S".toList, "M.S".toList] s (fun n rest =>
      match rest with
      | '.' :: _ => some ⟨[n], n + 1⟩
      | _ => some ⟨[n], n⟩)
  else none

/-- English pattern 2: `\b(U\.S\.A|U\.S|U\.K)\.(?!\s*$)`. -/
def mAbbrevCountry : Matcher := fun prev s =>
  if noWordBefore prev then
    tryAlts ["U.S.A".toList, "U.S".toList, "U.K".toList] s (fun n rest =>
      match rest with
      | '.' :: rest2 =>
        if rest2.all (isSpace ·) then none else some ⟨[n], n + 1⟩
      | _ => none)
  else none

/-- English pattern 3: `\b(etc|vs|i\.e|e\.g)\.`. -/
def mAbbrevLatinEn : Matcher := fun prev s =>
  if noWordBefore prev then
    tryAlts ["etc".toList, "vs".toList, "i.e".toList, "e.g".toList] s
      (fun n rest =>
        match rest with
        | '.' :: _ => some ⟨[n], n + 1⟩
        | _ => none)
  else none

/-- English pattern 4:
`\b[0-9]+:[0-9]+ (A\.M|P\.M|a\.m|p\.m)(?=\s+[A-Z])`.
(The capture group is not a prefix of the match and is unused by the
chunker, so it is not reported.) -/
def mAbbrevTimeEn : Matcher := fun prev s =>
  if noWordBefore prev then
    let d1 := runLen (·.isDigit) s
    if d1 = 0 then none else
    match s.drop d1 with
    | ':' :: r1 =>
      let d2 := runLen (·.isDigit) r1
      if d2 = 0 then none else
      match r1.drop d2 with
      | ' ' :: r2 =>
        tryAlts ["A.M".toList, "P.M".toList, "a.m".toList, "p.m".toList] r2
          (fun n r3 =>
            let w := runLen (isSpace ·) r3
            if w = 0 then none else
            match r3.drop w with
            | c :: _ =>
              if isUpperAZ c then some ⟨[], d1 + 1 + d2 + 1 + n⟩ else none
            | [] => none)
      | _ => none
    | _ => none
  else none

/-- The acronym list shared by both languages:
`\b(NASA|FBI|CIA|MIT|IBM|CEO|CFO|CTO|HTTP|HTTPS|SSL|TLS)\b`. -/
def acronymList : List Str :=
  ["NASA".toList, "FBI".toList, "CIA".toList, "MIT".toList, "IBM".toList,
   "CEO".toList, "CFO".toList, "CTO".toList, "HTTP".toList, "HTTPS".toList,
   "SSL".toList, "TLS".toList]

/-- A whole-word alternation `\b(w1|w2|...)\b` (case sensitive). -/
def mWordList (words : List Str) : Matcher := fun prev s =>
  if noWordBefore prev then
    tryAlts words s (fun n rest =>
      if wordBoundaryAfter rest then some ⟨[n], n⟩ else none)
  else none

/-- English / Spanish pattern 5: the acronyms. -/
def mAbbrevAcronym : Matcher := mWordList acronymList

/-- Spanish pattern 0: `\b(Dr|Dra|Sr|Sra|Prof)\.`. -/
def mAbbrevTitleEs : Matcher := fun prev s =>
  if noWordBefore prev then
    tryAlts ["Dr".toList, "Dra".toList, "Sr".toList, "Sra".toList,
             "Prof".toList] s (fun n rest =>
      match rest with
      | '.' :: _ => some ⟨[n], n + 1⟩
      | _ => none)
  else none

/-- Spanish pattern 1: `\b(EE\.UU)\b\.?`. -/
def mAbbrevEEUU : Matcher := fun prev s =>
  if noWordBefore prev && startsL ("EE.UU".toList) s then
    match s.drop 5 with
    | [] => some ⟨[5], 5⟩
    | '.' :: _ => some ⟨[5], 6⟩
    | c :: _ => if isWordChar c then none else some ⟨[5], 5⟩
  else none

/-- Spanish pattern 2: `\b(etc|p\.ej|vs)\.`. -/
def mAbbrevLatinEs : Matcher := fun prev s =>
  if noWordBefore prev then
    tryAlts ["etc".toList, "p.ej".toList, "vs".toList] s (fun n rest =>
      match rest with
      | '.' :: _ => some ⟨[n], n + 1⟩
      | _ => none)
  else none

/-- Spanish pattern 3: `\b[0-9]+:[0-9]+ (A\.M|P\.M|a\.m|p\.m)\.`. -/
def mAbbrevTimeEs : Matcher := fun prev s =>
  if noWordBefore prev then
    let d1 := runLen (·.isDigit) s
    if d1 = 0 then none else
    match s.drop d1 with
    | ':' :: r1 =>
      let d2 := runLen (·.isDigit) r1
      if d2 = 0 then none else
      match r1.drop d2 with
      | ' ' :: r2 =>
        tryAlts ["A.M".toList, "P.M".toList, "a.m".toList, "p.m".toList] r2
          (fun n r3 =>
            match r3 with
            | '.' :: _ => some ⟨[], d1 + 1 + d2 + 1 + n + 1⟩
            | _ => none)
      | _ => none
    | _ => none
  else none

/-- `GoldStandardChunker.abbreviations['english']` as matchers, in source
order. -/
def abbrevPatternsEn : List Matcher :=
  [mAbbrevTitleEn, mAbbrevDegree, mAbbrevCountry, mAbbrevLatinEn,
   mAbbrevTimeEn, mAbbrevAcronym]

/-- `GoldStandardChunker.abbreviations['spanish']` as matchers, in source
order. -/
def abbrevPatternsEs : List Matcher :=
  [mAbbrevTitleEs, mAbbrevEEUU, mAbbrevLatinEs, mAbbrevTimeEs,
   mAbbrevAcronym]

/-! ### GoldStandardChunker sentence boundary and break patterns -/

/-- Capital classes of the two `sentence_endings` patterns:
`[A-Z¡¿]` and `[A-ZÁÉÍÓÚÑüéíóúá¡¿]`. -/
def capsEn (c : Char) : Bool := isUpperAZ c || c = '¡' || c = '¿'

def capsEs (c : Char) : Bool :=
  isUpperAZ c || c ∈ ['Á','É','Í','Ó','Ú','Ñ','ü','é','í','ó','ú','á','¡','¿']

/-- `([.!?]+)(\s+)(?=CAPS|$)`, the `sentence_endings` patterns. -/
def mSentEndGold (caps : Char → Bool) : Matcher := fun _ s =>
  let p := runLen (isPunctSE ·) s
  if p = 0 then none else
  let w := runLen (isSpace ·) (s.drop p)
  if w = 0 then none else
  match s.drop (p + w) with
  | [] => some ⟨[p, w], p + w⟩
  | c :: _ => if caps c then some ⟨[p, w], p + w⟩ else none

/-- `punctuation_breaks[0]`: `(\([^)]*\))(\s+)`. -/
def mParenBreak : Matcher := fun _ s =>
  match s with
  | '(' :: rest =>
    let inner := runLen (· != ')') rest
    match rest.drop inner with
    | ')' :: rest2 =>
      let w := runLen (isSpace ·) rest2
      if w = 0 then none else some ⟨[inner + 2, w], inner + 2 + w⟩
    | _ => none
  | _ => none

/-- `punctuation_breaks[1]`: `(!)(\s+)(?=[A-Z¡¿])` with `re.IGNORECASE`
(so the class also matches lowercase ASCII letters). -/
def mExclBreak : Matcher := fun _ s =>
  match s with
  | '!' :: rest =>
    let w := runLen (isSpace ·) rest
    if w = 0 then none else
    match rest.drop w with
    | c :: _ =>
      if c.isAlpha || c = '¡' || c = '¿' then some ⟨[1, w], 1 + w⟩ else none
    | [] => none
  | _ => none

/-- `punctuation_breaks[2]`:
`(;)(\s+)(specifically|namely|however|therefore|furthermore)`,
`re.IGNORECASE`. -/
def mSemiTransBreak : Matcher := fun _ s =>
  match s with
  | ';' :: rest =>
    let w := runLen (isSpace ·) rest
    if w = 0 then none else
    tryAltsCI ["specifically".toList, "namely".toList, "however".toList,
               "therefore".toList, "furthermore".toList] (rest.drop w)
      (fun n _ => some ⟨[1, w, n], 1 + w + n⟩)
  | _ => none

/-- `GoldStandardChunker.punctuation_breaks` in source order. -/
def punctuationBreaks : List Matcher :=
  [mParenBreak, mExclBreak, mSemiTransBreak]

/-- `natural_breaks[0]`: `(\s+)(and|but|or|so|yet|y|pero|o)(\s+)`,
`re.IGNORECASE`. -/
def mNatConj : Matcher := fun _ s =>
  let w1 := runLen (isSpace ·) s
  if w1 = 0 then none else
  tryAltsCI ["and".toList, "but".toList, "or".toList, "so".toList,
             "yet".toList, "y".toList, "pero".toList, "o".toList]
    (s.drop w1) (fun n rest =>
      let w2 := runLen (isSpace ·) rest
      if w2 = 0 then none else some ⟨[w1, n, w2], w1 + n + w2⟩)

/-- The tail `\s*,?\s+` of `natural_breaks[1]`, with Python's
leftmost-greedy backtracking: either maximal whitespace, a comma and more
whitespace, or (when that fails) just the maximal whitespace run, which
must then be non-empty. -/
def wsCommaWsLen (s : Str) : Option Nat :=
  let a := runLen (isSpace ·) s
  match s.drop a with
  | ',' :: r =>
    let w := runLen (isSpace ·) r
    if w ≠ 0 then some (a + 1 + w)
    else if a ≠ 0 then some a else none
  | _ => if a ≠ 0 then some a else none

/-- `natural_breaks[1]`:
`(\s+)(however|therefore|furthermore|nevertheless|moreover|sin embargo|por lo tanto|además)(\s*,?\s+)`, `re.IGNORECASE`. -/
def mNatTrans : Matcher := fun _ s =>
  let w1 := runLen (isSpace ·) s
  if w1 = 0 then none else
  tryAltsCI ["however".toList, "therefore".toList, "furthermore".toList,
             "nevertheless".toList, "moreover".toList, "sin embargo".toList,
             "por lo tanto".toList, "además".toList] (s.drop w1)
    (fun n rest =>
      match wsCommaWsLen rest with
      | some w2 => some ⟨[w1, n, w2], w1 + n + w2⟩
      | none => none)

/-- `natural_breaks[2]`: `(,)(\s+)(?=\w)`. -/
def mNatComma : Matcher := fun _ s =>
  match s with
  | ',' :: rest =>
    let w := runLen (isSpace ·) rest
    if w = 0 then none else
    match rest.drop w with
    | c :: _ => if isWordChar c then some ⟨[1, w], 1 + w⟩ else none
    | [] => none
  | _ => none

/-- `natural_breaks[3]`: `(;)(\s+)`. -/
def mNatSemi : Matcher := fun _ s =>
  match s with
  | ';' :: rest =>
    let w := runLen (isSpace ·) rest
    if w = 0 then none else some ⟨[1, w], 1 + w⟩
  | _ => none

/-- `GoldStandardChunker.natural_breaks` in source order. -/
def naturalBreaks : List Matcher := [mNatConj, mNatTrans, mNatComma, mNatSemi]

/-- `(,)(\s+)(and|but|or|so|yet)\s+` with `re.IGNORECASE`, the
`comma_conjunction_pattern` of `find_optimal_break_point` and
`chunk_long_sentence`. -/
def mCommaConj : Matcher := fun _ s =>
  match s with
  | ',' :: rest =>
    let w := runLen (isSpace ·) rest
    if w = 0 then none else
    tryAltsCI ["and".toList, "but".toList, "or".toList, "so".toList,
               "yet".toList] (rest.drop w) (fun n rest2 =>
      let w2 := runLen (isSpace ·) rest2
      if w2 = 0 then none else some ⟨[1, w, n], 1 + w + n + w2⟩)
  | _ => none

/-! ### detect_language word lists -/

/-- `\b(que|para|con|por|desde|hasta|donde|cuando|porque|aunque)\b`. -/
def spanishWords1 : List Str :=
  ["que".toList, "para".toList, "con".toList, "por".toList, "desde".toList,
   "hasta".toList, "donde".toList, "cuando".toList, "porque".toList,
   "aunque".toList]

/-- `\b(the|and|for|with|from|where|when|because|although|however)\b`. -/
def englishWords1 : List Str :=
  ["the".toList, "and".toList, "for".toList, "with".toList, "from".toList,
   "where".toList, "when".toList, "because".toList, "although".toList,
   "however".toList]

/-- `\b(el|la|los|las|es|en|de)\b`. -/
def spanishWords2 : List Str :=
  ["el".toList, "la".toList, "los".toList, "las".toList, "es".toList,
   "en".toList, "de".toList]

/-- `\b(a|an|of|in|to|is|was|were)\b`. -/
def englishWords2 : List Str :=
  ["a".toList, "an".toList, "of".toList, "in".toList, "to".toList,
   "is".toList, "was".toList, "were".toList]

/-- `len(re.findall(r'\b(w1|...)\b', text))`. -/
def countWordMatches (words : List Str) (s : Str) : Nat :=
  (findAll (mWordList words) s).length

/-- The Spanish-specific character class `[áéíóúñü¡¿]` of
`detect_language`. -/
def isSpanishChar (c : Char) : Bool :=
  c ∈ ['á','é','í','ó','ú','ñ','ü','¡','¿']

/-! ### SmartChunker patterns -/

/-- `[.!?]+\s+`, `SmartChunker.sentence_endings`. -/
def mSentEndSmart : Matcher := fun _ s =>
  let p := runLen (isPunctSE ·) s
  if p = 0 then none else
  let w := runLen (isSpace ·) (s.drop p)
  if w = 0 then none else some ⟨[], p + w⟩

/-- Index of the last `'\n'` in `s`, if any. -/
def lastNewlineIdx (s : Str) : Option Nat :=
  ((s.enum.filter (fun p => p.2 = '\n')).getLast?).map (·.1)

/-- `\n\s*\n`, the `paragraph_breaks` pattern (greedy `\s*` then
backtracking to the last newline inside the whitespace run). -/
def mParaBreak : Matcher := fun _ s =>
  match s with
  | '\n' :: rest =>
    let a := runLen (isSpace ·) rest
    match lastNewlineIdx (rest.take a) with
    | some k => some ⟨[], 1 + k + 1⟩
    | none => none
  | _ => none

/-- `re.sub(r'([.!?])([A-Z])', r'\1 \2', text)`: insert a space between
sentence punctuation and an immediately following capital letter
(non-overlapping left-to-right matches, which both consume their two
characters). -/
def subPunctCap : Str → Str
  | [] => []
  | [c] => [c]
  | a :: b :: rest =>
    if isPunctSE a && isUpperAZ b then a :: ' ' :: b :: subPunctCap rest
    else a :: subPunctCap (b :: rest)

/-! ### TTSOptimizedChunker patterns -/

/-- `(Mr|Mrs|Ms|Dr|Prof|Sr|Jr)\.\s+`, `re.IGNORECASE` (note: no `\b`). -/
def mTtsTitle : Matcher := fun _ s =>
  tryAltsCI ["mr".toList, "mrs".toList, "ms".toList, "dr".toList,
             "prof".toList, "sr".toList, "jr".toList] s (fun n rest =>
    match rest with
    | '.' :: rest2 =>
      let w := runLen (isSpace ·) rest2
      if w = 0 then none else some ⟨[n], n + 1 + w⟩
    | _ => none)

/-- `(etc|vs|e\.g|i\.e)\.\s+`, `re.IGNORECASE`. -/
def mTtsLatin : Matcher := fun _ s =>
  tryAltsCI ["etc".toList, "vs".toList, "e.g".toList, "i.e".toList] s
    (fun n rest =>
      match rest with
      | '.' :: rest2 =>
        let w := runLen (isSpace ·) rest2
        if w = 0 then none else some ⟨[n], n + 1 + w⟩
      | _ => none)

/-- `(U\.S\.|U\.K\.|Ph\.D)\.\s+`, `re.IGNORECASE` (the alternatives
already end in a period, so the match needs a second period). -/
def mTtsCountry : Matcher := fun _ s =>
  tryAltsCI ["u.s.".toList, "u.k.".toList, "ph.d".toList] s (fun n rest =>
    match rest with
    | '.' :: rest2 =>
      let w := runLen (isSpace ·) rest2
      if w = 0 then none else some ⟨[n], n + 1 + w⟩
    | _ => none)

/-- `\b\d+\.\d+\s+` (decimal numbers followed by whitespace). -/
def mTtsDecimal : Matcher := fun prev s =>
  if noWordBefore prev then
    let d1 := runLen (·.isDigit) s
    if d1 = 0 then none else
    match s.drop d1 with
    | '.' :: r1 =>
      let d2 := runLen (·.isDigit) r1
      if d2 = 0 then none else
      let w := runLen (isSpace ·) (r1.drop d2)
      if w = 0 then none else some ⟨[], d1 + 1 + d2 + w⟩
    | _ => none
  else none

/-- `TTSOptimizedChunker.protected_patterns` in source order. -/
def ttsProtectedPatterns : List Matcher :=
  [mTtsTitle, mTtsLatin, mTtsCountry, mTtsDecimal]

/-- `([.!?])\s+`, `TTSOptimizedChunker.sentence_endings` (a single
punctuation character, captured). -/
def mSentEndTts : Matcher := fun _ s =>
  match s with
  | c :: rest =>
    if isPunctSE c then
      let w := runLen (isSpace ·) rest
      if w = 0 then none else some ⟨[1], 1 + w⟩
    else none
  | [] => none

/-- `;\s+` (TTS break pattern 1). -/
def mTtsSemi : Matcher := fun _ s =>
  match s with
  | ';' :: rest =>
    let w := runLen (isSpace ·) rest
    if w = 0 then none else some ⟨[], 1 + w⟩
  | _ => none

/-- `,\s+(and|but|or|however|therefore|moreover)\s+`, `re.IGNORECASE`
(TTS break pattern 2). -/
def mTtsConj : Matcher := fun _ s =>
  match s with
  | ',' :: rest =>
    let w := runLen (isSpace ·) rest
    if w = 0 then none else
    tryAltsCI ["and".toList, "but".toList, "or".toList, "however".toList,
               "therefore".toList, "moreover".toList] (rest.drop w)
      (fun n rest2 =>
        let w2 := runLen (isSpace ·) rest2
        if w2 = 0 then none else some ⟨[n], 1 + w + n + w2⟩)
  | _ => none

/-- `,\s+which\s+`, `re.IGNORECASE` (TTS break pattern 3). -/
def mTtsWhich : Matcher := fun _ s =>
  match s with
  | ',' :: rest =>
    let w := runLen (isSpace ·) rest
    if w = 0 then none else
    if startsCI ("which".toList) (rest.drop w) then
      let w2 := runLen (isSpace ·) (rest.drop (w + 5))
      if w2 = 0 then none else some ⟨[], 1 + w + 5 + w2⟩
    else none
  | _ => none

/-- `,\s+` (TTS break pattern 4). -/
def mTtsComma : Matcher := fun _ s =>
  match s with
  | ',' :: rest =>
    let w := runLen (isSpace ·) rest
    if w = 0 then none else some ⟨[], 1 + w⟩
  | _ => none

/-- The TTS `break_patterns` in source order. -/
def ttsBreakPatterns : List Matcher := [mTtsSemi, mTtsConj, mTtsWhich, mTtsComma]

/-- `re.sub(r'([;:,])([^\s])', r'\1 \2', text)`. -/
def subPunctNonSpace : Str → Str
  | [] => []
  | [c] => [c]
  | a :: b :: rest =>
    if (a = ';' || a = ':' || a = ',') && !isSpace b then
      a :: ' ' :: b :: subPunctNonSpace rest
    else a :: subPunctNonSpace (b :: rest)

/-- `re.sub(r'([.!?])(\s*)$', r'\1', text)`: drop trailing whitespace
that follows final sentence punctuation. -/
def cleanEnding (s : Str) : Str :=
  let core := pyRstrip s
  match core.getLast? with
  | some c => if isPunctSE c then core else s
  | none => s

/-- `re.sub(r'([.!?])(\s+)([A-Z])', r'\1 \2\3', text)`: the replacement
re-inserts group 2, so this adds an extra space before the existing
whitespace (fuel-structured recursion; the scan continues after the
consumed capital letter). -/
def subPunctWsCapF : Nat → Str → Str
  | 0, s => s
  | _ + 1, [] => []
  | fuel + 1, c :: rest =>
    if isPunctSE c then
      let w := runLen (isSpace ·) rest
      if w = 0 then c :: subPunctWsCapF fuel rest else
      match rest.drop w with
      | b :: rest2 =>
        if isUpperAZ b then
          c :: ' ' :: (rest.take w ++ b :: subPunctWsCapF fuel rest2)
        else c :: subPunctWsCapF fuel rest
      | [] => c :: subPunctWsCapF fuel rest
    else c :: subPunctWsCapF fuel rest

def subPunctWsCap (s : Str) : Str := subPunctWsCapF (s.length + 1) s

/-! ### precise_chunker patterns -/

/-- `re.search(r'!\s+\(', text)`. -/
def mExclParen : Matcher := fun _ s =>
  match s with
  | '!' :: rest =>
    let w := runLen (isSpace ·) rest
    if w = 0 then none else
    match rest.drop w with
    | '(' :: _ => some ⟨[], 1 + w + 1⟩
    | _ => none
  | _ => none

/-- `re.split(r'(!\s+)(?=\()', text)`: the exclamation and whitespace are
captured, the parenthesis is a lookahead. -/
def mExclWsBeforeParen : Matcher := fun _ s =>
  match s with
  | '!' :: rest =>
    let w := runLen (isSpace ·) rest
    if w = 0 then none else
    match rest.drop w with
    | '(' :: _ => some ⟨[1 + w], 1 + w⟩
    | _ => none
  | _ => none

/-! ## GoldStandardChunker (src/chunking/gold_standard_chunker.py) -/

/-- Decimal digit string of a natural number. -/
def natStrF : Nat → Nat → Str
  | 0, _ => []
  | fuel + 1, n =>
    if n < 10 then [Char.ofNat (48 + n)]
    else natStrF fuel (n / 10) ++ [Char.ofNat (48 + n % 10)]

def natStr (n : Nat) : Str := natStrF (n + 1) n

inductive Language where
  | english
  | spanish
  deriving Repr, DecidableEq

namespace GoldStandardChunker

/-- The construction-time configuration of `GoldStandardChunker.__init__`
(which stores its arguments without any validation). -/
structure Config where
  target_size : Nat
  max_size : Nat
  prefer_sentence_boundaries : Bool
  min_chunk_size : Nat
  deriving Repr, DecidableEq

/-- The default configuration
`GoldStandardChunker(target_size=150, max_size=300,
prefer_sentence_boundaries=True, min_chunk_size=40)`. -/
def defaultConfig : Config := ⟨150, 300, true, 40⟩

/-- `detect_language`. -/
def detect_language (text : Str) : Language :=
  if text.any (isSpanishChar ·) then .spanish
  else
    let tl := lowerS text
    let spanish_words := countWordMatches spanishWords1 tl
    let english_words := countWordMatches englishWords1 tl
    let spanish_indicators := spanish_words + countWordMatches spanishWords2 tl
    let english_indicators := english_words + countWordMatches englishWords2 tl
    if spanish_indicators > english_indicators then .spanish else .english

/-- `self.abbreviations[language]`. -/
def abbrevPatterns : Language → List Matcher
  | .english => abbrevPatternsEn
  | .spanish => abbrevPatternsEs

/-- `self.sentence_endings[language]`'s capital class. -/
def goldCaps : Language → Char → Bool
  | .english => capsEn
  | .spanish => capsEs

/-- `f"__ABBREV_{i}_{j}__"`. -/
def placeholder (i j : Nat) : Str :=
  "__ABBREV_".toList ++ natStr i ++ "_".toList ++ natStr j ++ "__".toList

/-- One pass of `protect_abbreviations` for pattern number `i`:
`finditer` over the current text, then splicing in the placeholders in
reversed match order (so the recorded spans stay valid), which replaces
the `k`-th of `K` matches (left to right) with placeholder index
`K - 1 - k`; the protection map receives the reversed matches in order
`j = 0, 1, ...`. -/
def protectOne (i : Nat) (m : Matcher) (text : Str) :
    Str × List (Str × Str) :=
  let (ms, fin) := scan m text
  let K := ms.length
  let newText :=
    ((ms.enum.map (fun km => km.2.pre ++ placeholder i (K - 1 - km.1))).flatten)
      ++ fin
  let entries := ms.reverse.enum.map (fun jm => (placeholder i jm.1, jm.2.tot))
  (newText, entries)

/-- `protect_abbreviations(text, language)`. -/
def protect_abbreviations (language : Language) (text : Str) :
    Str × List (Str × Str) :=
  (abbrevPatterns language).enum.foldl
    (fun acc im =>
      let r := protectOne im.1 im.2 acc.1
      (r.1, acc.2 ++ r.2))
    (text, [])

/-- `restore_abbreviations(text, protection_map)`: replace every
placeholder by its original, in insertion order. -/
def restore_abbreviations (text : Str) (pmap : List (Str × Str)) : Str :=
  pmap.foldl (fun t e => replaceAll t e.1 e.2) text

/-- The `i % 3` reassembly loop of the `punctuation_breaks` branch of
`split_into_sentences` (text part, punctuation part, whitespace part). -/
def pbLoop (pmap : List (Str × Str)) : Nat → Str → List Str → List Str
  | _, current, [] =>
    if stripNonEmpty current then [restore_abbreviations (pyStrip current) pmap]
    else []
  | i, current, part :: rest =>
    if i % 3 = 0 then pbLoop pmap (i + 1) (current ++ part) rest
    else if i % 3 = 1 then
      let current2 := current ++ part
      (if stripNonEmpty current2 then
        [restore_abbreviations (pyStrip current2) pmap]
      else []) ++ pbLoop pmap (i + 1) [] rest
    else pbLoop pmap (i + 1) current rest

/-- The loop over `self.punctuation_breaks`: the first pattern that
occurs in the text takes over the whole split (if it produced any
parts). -/
def tryPunctuationBreaks (pmap : List (Str × Str)) :
    List Matcher → Str → Option (List Str)
  | [], _ => none
  | m :: rest, ptext =>
    if searchB m ptext then
      let res := pbLoop pmap 0 [] (splitGroups m ptext)
      if res.isEmpty then tryPunctuationBreaks pmap rest ptext else some res
    else tryPunctuationBreaks pmap rest ptext

/-- The `i % 3` reassembly loop of the standard `sentence_endings`
branch (the whitespace part closes a sentence). -/
def seLoop (pmap : List (Str × Str)) : Nat → Str → List Str → List Str
  | _, current, [] =>
    if stripNonEmpty current then [restore_abbreviations (pyStrip current) pmap]
    else []
  | i, current, part :: rest =>
    if i % 3 = 0 || i % 3 = 1 then seLoop pmap (i + 1) (current ++ part) rest
    else
      (if stripNonEmpty current then
        [restore_abbreviations (pyStrip current) pmap]
      else []) ++ seLoop pmap (i + 1) [] rest

/-- `split_into_sentences(text, language)`. -/
def split_into_sentences (language : Language) (text : Str) : List Str :=
  let p := protect_abbreviations language text
  match tryPunctuationBreaks p.2 punctuationBreaks p.1 with
  | some parts => parts
  | none =>
    (seLoop p.2 0 [] (splitGroups (mSentEndGold (goldCaps language)) p.1)).filter
      (stripNonEmpty ·)

/-- `find_optimal_break_point(text, max_pos)`. -/
def find_optimal_break_point (text : Str) (max_pos : Nat) : Nat :=
  if text.length ≤ max_pos then text.length
  else
    match (matchStarts (findAll mCommaConj (text.take max_pos))).getLast? with
    | some sm => sm.1 + (sm.2.groups.headD []).length
    | none =>
      let search_start := max_pos - 100
      let search_text := (text.take max_pos).drop search_start
      let best := naturalBreaks.foldl
        (fun (acc : Option Nat) m =>
          match (matchStarts (findAll m search_text)).getLast? with
          | some sm => some (search_start + sm.1 + (sm.2.groups.headD []).length)
          | none => acc) none
      match best with
      | some b => b
      | none =>
        match rfindSpaceBefore text max_pos with
        | some k => k
        | none => max_pos

/-- `abs(match.start() - len(sentence) * 0.6)` compared exactly:
`|5*start - 3*len|` (the Python float `0.6` is embedded as the exact
rational 3/5). -/
def dist60 (len st : Nat) : Nat := max (5 * st) (3 * len) - min (5 * st) (3 * len)

/-- The `best_match` selection loop of `chunk_long_sentence`: the first
match whose distance to the 60% position is strictly smaller than the
current best wins. -/
def pickBest60 (len : Nat) (ms : List (Nat × MatchData)) :
    Option (Nat × MatchData) :=
  ms.foldl
    (fun acc sm =>
      match acc with
      | none => some sm
      | some b => if dist60 len sm.1 < dist60 len b.1 then some sm else some b)
    none

/-- The `while remaining and len(remaining) > max_size` loop of
`chunk_long_sentence`, with fuel (`none` = the Python loop never
terminates, which happens for `max_size = 0`). -/
def chunkLongLoopF (cfg : Config) : Nat → Str → List Str → Option (List Str)
  | 0, _, _ => none
  | fuel + 1, remaining, chunks =>
    if !remaining.isEmpty && remaining.length > cfg.max_size then
      let bp0 := find_optimal_break_point remaining cfg.max_size
      let bp := if bp0 = 0 then cfg.max_size else bp0
      let chunk := pyStrip (remaining.take bp)
      let chunks1 := if chunk.isEmpty then chunks else chunks ++ [chunk]
      chunkLongLoopF cfg fuel (pyStrip (remaining.drop bp)) chunks1
    else
      some (if remaining.isEmpty then chunks else chunks ++ [remaining])

/-- The leading comma+conjunction block of `chunk_long_sentence`
(`if matches and len(sentence) >= self.target_size: ...`): `some` when
that block returns, `none` when control falls through to the fallback
code below it. -/
def chunkLongCommaSplit (cfg : Config) (s : Str) : Option (List Str) :=
  let ms := matchStarts (findAll mCommaConj s)
  if !ms.isEmpty && s.length ≥ cfg.target_size then
    match pickBest60 s.length ms with
    | none => none
    | some sm =>
      let bp := sm.1 + (sm.2.groups.headD []).length
      let first := pyStrip (s.take bp)
      let second := pyStrip (s.drop bp)
      if !first.isEmpty && !second.isEmpty then some [first, second] else none
  else none

/-- `chunk_long_sentence(sentence)`. -/
def chunk_long_sentence (cfg : Config) (s : Str) : Option (List Str) :=
  match chunkLongCommaSplit cfg s with
  | some r => some r
  | none =>
    if s.length ≤ cfg.max_size then some [s]
    else chunkLongLoopF cfg (s.length + 1) s []

/-- The generic accumulation step at the bottom of the main loop of
`gold_standard_chunk_text` (also reached on fall-through from the
`prefer_sentence_boundaries` strategies): returns the new current chunk
and chunk list. -/
def goldGeneric (cfg : Config) (current s : Str) (chunks : List Str) :
    Str × List Str :=
  let potential := if current.isEmpty then s else current ++ [' '] ++ s
  if potential.length ≤ cfg.target_size || current.isEmpty then
    (potential, chunks)
  else (s, chunks ++ [pyStrip current])

/-- The main sentence loop of `gold_standard_chunk_text`. -/
def goldAssemble (cfg : Config) :
    List Str → Str → List Str → Option (List Str)
  | [], current, chunks =>
    some (if stripNonEmpty current then chunks ++ [pyStrip current] else chunks)
  | s0 :: rest, current, chunks =>
    let s := pyStrip s0
    if s.isEmpty then goldAssemble cfg rest current chunks
    else if s.length > cfg.max_size then
      let chunks1 := if !current.isEmpty then chunks ++ [pyStrip current] else chunks
      match chunk_long_sentence cfg s with
      | none => none
      | some lc => goldAssemble cfg rest [] (chunks1 ++ lc)
    else if cfg.prefer_sentence_boundaries then
      let potential := if current.isEmpty then s else current ++ [' '] ++ s
      if s.length ≤ cfg.min_chunk_size && potential.length ≤ cfg.target_size then
        goldAssemble cfg rest potential chunks
      else if s.length < cfg.target_size && s.length > cfg.min_chunk_size then
        let chunks1 := if !current.isEmpty then chunks ++ [pyStrip current] else chunks
        goldAssemble cfg rest [] (chunks1 ++ [s])
      else if s.length ≥ cfg.target_size then
        let chunks1 := if !current.isEmpty then chunks ++ [pyStrip current] else chunks
        match chunk_long_sentence cfg s with
        | none => none
        | some sc => goldAssemble cfg rest [] (chunks1 ++ sc)
      else
        let g := goldGeneric cfg current s chunks
        goldAssemble cfg rest g.1 g.2
    else
      let g := goldGeneric cfg current s chunks
      goldAssemble cfg rest g.1 g.2

/-- `gold_standard_chunk_text(text)` (the public chunking operation;
`none` = non-termination of a `chunk_long_sentence` loop). -/
def gold_standard_chunk_text (cfg : Config) (text : Str) :
    Option (List Str) :=
  if (pyStrip text).isEmpty then some []
  else
    let language := detect_language text
    let sentences := split_into_sentences language text
    if sentences.isEmpty then some [pyStrip text]
    else
      match goldAssemble cfg sentences [] [] with
      | none => none
      | some chunks =>
        some (if chunks.isEmpty && stripNonEmpty text then [pyStrip text]
              else chunks)

end GoldStandardChunker

/-! ## SmartChunker (src/chunking/smart_chunking.py) -/

namespace SmartChunker

/-- `SmartChunker.__init__(target_size, max_size, min_size)`: stores its
arguments with no validation whatsoever. -/
structure Config where
  target_size : Nat
  max_size : Nat
  min_size : Nat
  deriving Repr, DecidableEq

/-- The default configuration `SmartChunker(250, 400, 100)`. -/
def defaultConfig : Config := ⟨250, 400, 100⟩

/-- `_normalize_text`: whitespace normalization, then a space inserted
between sentence punctuation and a following capital. -/
def normalize_text (text : Str) : Str := subPunctCap (normalizeWs text)

/-- `_split_sentences(paragraph)`: split on `[.!?]+\s+`, then re-attach
each stripped ending to its stripped sentence. -/
def split_sentences (paragraph : Str) : List Str :=
  let pieces := splitNoGroups mSentEndSmart paragraph
  let parts := (findAll mSentEndSmart paragraph).map (·.tot)
  (pieces.dropLast.enum.filterMap (fun ip =>
    if stripNonEmpty ip.2 then
      some (pyStrip ip.2 ++ pyStrip (parts.getD ip.1 (". ".toList)))
    else none)) ++
  (let last := (pieces.getLast?).getD []
   if stripNonEmpty last then [pyStrip last] else [])

/-- The `break_points` list of `_force_split_sentence`. -/
def smartBreakPoints : List Str :=
  [", ".toList, "; ".toList, " and ".toList, " but ".toList, " or ".toList,
   " because ".toList, " although ".toList]

/-- Leftmost occurrence index of `pat` in a string (`str.find`). -/
def findSubIdx (pat : Str) : Str → Option Nat
  | [] => if pat.isEmpty then some 0 else none
  | c :: cs =>
    if startsL pat (c :: cs) then some 0 else (findSubIdx pat cs).map (· + 1)

/-- The `for break_point in break_points` loop: the first break point
that occurs in the sentence and whose one-time split leaves both parts
longer than `min_size`. -/
def firstValidBp (cfg : Config) (sentence : Str) :
    List Str → Option (Nat × Str)
  | [] => none
  | bp :: rest =>
    match findSubIdx bp sentence with
    | some idx =>
      if idx > cfg.min_size &&
         (sentence.drop (idx + bp.length)).length > cfg.min_size then
        some (idx, bp)
      else firstValidBp cfg sentence rest
    | none => firstValidBp cfg sentence rest

/-- The final `while len(sentence) > max_size` loop of
`_force_split_sentence` (fuel; `none` = divergence, which really happens
for `max_size = 0`). -/
def lastResortF (cfg : Config) : Nat → Str → List Str → Option (List Str)
  | 0, _, _ => none
  | fuel + 1, sentence, chunks =>
    if sentence.length > cfg.max_size then
      let split_pos :=
        match rfindSpaceBefore sentence cfg.max_size with
        | some k => k
        | none => cfg.max_size
      lastResortF cfg fuel (pyLstrip (sentence.drop split_pos))
        (chunks ++ [sentence.take split_pos])
    else some (if sentence.isEmpty then chunks else chunks ++ [sentence])

/-- `_force_split_sentence`, with fuel for its recursion and final
loop. -/
def forceSplitF (cfg : Config) : Nat → Str → Option (List Str)
  | 0, _ => none
  | fuel + 1, sentence =>
    match firstValidBp cfg sentence smartBreakPoints with
    | some ib =>
      match forceSplitF cfg fuel (sentence.drop (ib.1 + ib.2.length)) with
      | none => none
      | some rest => some ((sentence.take ib.1 ++ pyRstrip ib.2) :: rest)
    | none => lastResortF cfg (fuel + 1) sentence []

def force_split_sentence (cfg : Config) (s : Str) : Option (List Str) :=
  forceSplitF cfg (s.length + 1) s

/-- The sentence loop of `_chunk_paragraph`. -/
def chunkParaLoop (cfg : Config) :
    List Str → Str → List Str → Option (List Str)
  | [], current, chunks =>
    some (if current.isEmpty then chunks else chunks ++ [pyStrip current])
  | s :: rest, current, chunks =>
    if s.length > cfg.max_size then
      let chunks1 := if current.isEmpty then chunks else chunks ++ [pyStrip current]
      match force_split_sentence cfg s with
      | none => none
      | some lc => chunkParaLoop cfg rest [] (chunks1 ++ lc)
    else
      let potential := if current.isEmpty then s else current ++ [' '] ++ s
      if potential.length > cfg.target_size then
        let chunks1 := if current.isEmpty then chunks else chunks ++ [pyStrip current]
        chunkParaLoop cfg rest s chunks1
      else chunkParaLoop cfg rest potential chunks

/-- `_chunk_paragraph(paragraph)`. -/
def chunk_paragraph (cfg : Config) (paragraph : Str) : Option (List Str) :=
  if paragraph.length ≤ cfg.max_size then some [paragraph]
  else chunkParaLoop cfg (split_sentences paragraph) [] []

/-- The paragraph loop of `smart_chunk_text`. -/
def parasLoop (cfg : Config) : List Str → List Str → Option (List Str)
  | [], chunks => some chunks
  | p :: rest, chunks =>
    if (pyStrip p).isEmpty then parasLoop cfg rest chunks
    else
      match chunk_paragraph cfg (pyStrip p) with
      | none => none
      | some pc => parasLoop cfg rest (chunks ++ pc)

/-- The chunk list of `smart_chunk_text` before its final `min_size`
filter. -/
def chunksBeforeFilter (cfg : Config) (text : Str) : Option (List Str) :=
  parasLoop cfg (splitNoGroups mParaBreak (normalize_text text)) []

/-- `smart_chunk_text(text)` (`none` = non-termination, possible only
for `max_size = 0`). -/
def smart_chunk_text (cfg : Config) (text : Str) : Option (List Str) :=
  (chunksBeforeFilter cfg text).map
    (·.filter (fun c => cfg.min_size ≤ (pyStrip c).length))

end SmartChunker

/-! ## TTSOptimizedChunker (src/chunking/tts_optimized_chunking.py) -/

namespace TTSOptimizedChunker

/-- `TTSOptimizedChunker.__init__(target_size, max_size, min_size)`
(again: no validation). -/
structure Config where
  target_size : Nat
  max_size : Nat
  min_size : Nat
  deriving Repr, DecidableEq

/-- The default configuration `TTSOptimizedChunker(280, 450, 120)`. -/
def defaultConfig : Config := ⟨280, 450, 120⟩

/-- `_normalize_for_tts(text)`: whitespace normalization, space after
sentence punctuation before capitals, space after `;:,`, trailing
whitespace cleanup, and the extra-space-inserting third substitution,
then `strip`. -/
def normalize_for_tts (text : Str) : Str :=
  pyStrip (subPunctWsCap (cleanEnding (subPunctNonSpace (subPunctCap (normalizeWs text)))))

/-- `f"__PROTECT_{counter}__"`. -/
def ttsPlaceholder (counter : Nat) : Str :=
  "__PROTECT_".toList ++ natStr counter ++ "__".toList

/-- The protection loop of `_split_sentences_tts_safe`: for each pattern,
`finditer` over the original paragraph, and for each match replace its
first occurrence in the evolving protected text with a fresh
placeholder. -/
def ttsProtect (paragraph : Str) : Str × List (Str × Str) :=
  let r := ttsProtectedPatterns.foldl
    (fun (acc : Str × List (Str × Str) × Nat) m =>
      (findAll m paragraph).foldl
        (fun (acc2 : Str × List (Str × Str) × Nat) md =>
          let ph := ttsPlaceholder acc2.2.2
          (replaceOne acc2.1 md.tot ph, acc2.2.1 ++ [(ph, md.tot)], acc2.2.2 + 1))
        acc)
    (paragraph, [], 0)
  (r.1, r.2.1)

/-- Replace every placeholder by its original (the restoration loops of
the TTS chunker). -/
def restorePlaceholders (pmap : List (Str × Str)) (s : Str) : Str :=
  pmap.foldl (fun t e => replaceAll t e.1 e.2) s

/-- `_split_sentences_tts_safe(paragraph)`. -/
def split_sentences_tts_safe (paragraph : Str) : List Str :=
  let p := ttsProtect paragraph
  let sc := scan mSentEndTts p.1
  (sc.1.filterMap (fun md =>
    let content := pyStrip md.pre
    if content.isEmpty then none
    else
      some (pyStrip (restorePlaceholders p.2
        (content ++ md.tot.take ((md.groups.headD []).length)))))) ++
  (let fin := pyStrip sc.2
   if fin.isEmpty then [] else [restorePlaceholders p.2 fin])

/-- `|a - b|` on naturals. -/
def distN (a b : Nat) : Nat := max a b - min a b

/-- `match.end()` of every match of a scan. -/
def matchEnds (ms : List MatchData) : List Nat :=
  (matchStarts ms).map (fun sm => sm.1 + sm.2.tot.length)

/-- `min(matches, key=lambda m: abs(m.end() - target_pos))` with
`target_pos = len(sentence) // 2` (Python `min` keeps the first
minimum). -/
def pickBestMid (len : Nat) (ends : List Nat) : Option Nat :=
  ends.foldl
    (fun acc e =>
      match acc with
      | none => some e
      | some b => if distN e (len / 2) < distN b (len / 2) then some e else some b)
    none

/-- The `for pattern, break_type in break_patterns` loop of
`_split_long_sentence_tts_safe`: the first pattern with matches whose
best split point passes the `min_size` validation of both parts. -/
def ttsTrySplitAux (cfg : Config) (s : Str) :
    List Matcher → Option (Str × Str)
  | [] => none
  | m :: rest =>
    match pickBestMid s.length (matchEnds (findAll m s)) with
    | none => ttsTrySplitAux cfg s rest
    | some e =>
      let first := pyStrip (s.take e)
      let second := pyStrip (s.drop e)
      if cfg.min_size ≤ first.length && cfg.min_size ≤ second.length then
        some (first, second)
      else ttsTrySplitAux cfg s rest

/-- The committed split of `_split_long_sentence_tts_safe`, if any
pattern class yields a valid one. -/
def ttsTrySplit (cfg : Config) (s : Str) : Option (Str × Str) :=
  ttsTrySplitAux cfg s ttsBreakPatterns

/-- The `for word in words` loop of `_split_at_words`. -/
def splitWordsLoop (cfg : Config) : List Str → Str → List Str → List Str
  | [], current, chunks =>
    if current.isEmpty then chunks else chunks ++ [current]
  | w :: rest, current, chunks =>
    let test := if current.isEmpty then w else current ++ [' '] ++ w
    if test.length > cfg.target_size then
      splitWordsLoop cfg rest w
        (if current.isEmpty then chunks else chunks ++ [current])
    else splitWordsLoop cfg rest test chunks

/-- `_split_at_words(text)`. -/
def split_at_words (cfg : Config) (t : Str) : List Str :=
  splitWordsLoop cfg (pySplitWs t) [] []

/-- `_split_long_sentence_tts_safe`, fuelled for its recursion on the
second part (the recursion always terminates; fuel `len + 1` is shown
sufficient below). -/
def ttsSplitLongF (cfg : Config) : Nat → Str → List Str
  | 0, _ => []
  | fuel + 1, s =>
    match ttsTrySplit cfg s with
    | some fs =>
      if fs.2.length > cfg.max_size then fs.1 :: ttsSplitLongF cfg fuel fs.2
      else [fs.1, fs.2]
    | none => split_at_words cfg s

def split_long_sentence_tts_safe (cfg : Config) (s : Str) : List Str :=
  ttsSplitLongF cfg (s.length + 1) s

/-- `_ensure_tts_termination(chunk)`: strip, and append a period unless
the chunk already ends in sentence punctuation (the source's two inner
branches both append `'.'`). -/
def ensure_tts_termination (chunk0 : Str) : Str :=
  let chunk := pyStrip chunk0
  if chunk.isEmpty then chunk
  else
    match chunk.getLast? with
    | some c => if isPunctSE c then chunk else chunk ++ ['.']
    | none => chunk

/-- The sentence loop of `_chunk_paragraph_for_tts`. -/
def ttsParaLoop (cfg : Config) : List Str → Str → List Str → List Str
  | [], current, chunks =>
    if current.isEmpty then chunks else chunks ++ [ensure_tts_termination current]
  | s :: rest, current, chunks =>
    if s.length > cfg.max_size then
      let chunks1 :=
        if current.isEmpty then chunks
        else chunks ++ [ensure_tts_termination current]
      let lc := (split_long_sentence_tts_safe cfg s).map ensure_tts_termination
      ttsParaLoop cfg rest [] (chunks1 ++ lc)
    else
      let test := if current.isEmpty then s else current ++ [' '] ++ s
      if test.length ≤ cfg.target_size then ttsParaLoop cfg rest test chunks
      else if current.length < cfg.min_size && test.length ≤ cfg.max_size then
        ttsParaLoop cfg rest test chunks
      else
        let chunks1 :=
          if current.isEmpty then chunks
          else chunks ++ [ensure_tts_termination current]
        ttsParaLoop cfg rest s chunks1

/-- `_chunk_paragraph_for_tts(paragraph)`. -/
def chunk_paragraph_for_tts (cfg : Config) (paragraph : Str) : List Str :=
  if paragraph.length ≤ cfg.max_size then [ensure_tts_termination paragraph]
  else ttsParaLoop cfg (split_sentences_tts_safe paragraph) [] []

/-- `tts_chunk_text(text)` (total: every loop is structurally bounded
and the long-sentence recursion strictly shrinks its argument). -/
def tts_chunk_text (cfg : Config) (text : Str) : List Str :=
  let t := normalize_for_tts text
  ((splitNoGroups mParaBreak t).foldl
    (fun chunks p =>
      if (pyStrip p).isEmpty then chunks
      else chunks ++ chunk_paragraph_for_tts cfg (pyStrip p)) [])
    |>.filter (fun c => cfg.min_size ≤ (pyStrip c).length)

end TTSOptimizedChunker

/-! ## precise_chunker (analysis/precise_chunker.py) -/

namespace PreciseChunker

/-- `re.match(r'(\([^)]*\)\.)\s*(.*)', remaining)`: group 1 is a
parenthesized clause followed by a period, then greedy whitespace, then
group 2 is the rest of the line (`.` does not match newlines). -/
def parenPeriodMatch (s : Str) : Option (Str × Str) :=
  match s with
  | '(' :: rest =>
    let inner := runLen (· != ')') rest
    match rest.drop inner with
    | ')' :: '.' :: rest2 =>
      let w := runLen (isSpace ·) rest2
      some (s.take (inner + 3), (rest2.drop w).takeWhile (· != '\n'))
    | _ => none
  | _ => none

/-- `precise_mixed_punctuation_split(text)`. -/
def precise_mixed_punctuation_split (text : Str) : List Str :=
  if searchB mExclParen text then
    let parts := splitGroups mExclWsBeforeParen text
    let first_part := parts.headD [] ++ ['!']
    let remaining := pyLstrip ((parts.drop 1).flatten)
    let chunks :=
      if startsL ("(".toList) remaining then
        match parenPeriodMatch remaining with
        | some pa =>
          let base := [first_part, pa.1]
          let sep := "; specifically,".toList
          if containsSub sep pa.2 then
            match SmartChunker.findSubIdx sep pa.2 with
            | some idx =>
              base ++ [pa.2.take idx ++ [';'],
                       "specifically,".toList ++ pa.2.drop (idx + sep.length)]
            | none => base ++ [pa.2]
          else base ++ [pa.2]
        | none => [first_part]
      else [first_part]
    (chunks.map pyStrip).filter (fun c => !c.isEmpty)
  else [text]

end PreciseChunker

/-! ## Claim C4: the mixed-punctuation scenario -/

/-- The scenario input of claim C4. -/
def mixedPunctText : Str :=
  "Great work! (Nice job.) However, fix the bug; specifically, the timeout.".toList

/-- The four chunks the specification claims for `mixedPunctText`. -/
def mixedPunctClaimed : List Str :=
  ["Great work!".toList, "(Nice job.)".toList,
   "However, fix the bug;".toList, "specifically, the timeout.".toList]

/-- C4 counterexample: on the scenario input neither cited implementation
returns the four claimed chunks.  The gold-standard engine returns two
chunks (the parenthetical break class takes over the split, but the text
before the parenthetical stays glued to it, and the assembler then groups
by size), and `precise_mixed_punctuation_split` returns only the first
chunk (its `re.split` keeps the captured `"! "` separator, so the
remainder never starts with `'('` and is dropped). -/
theorem C4_counterexample :
    GoldStandardChunker.gold_standard_chunk_text
        GoldStandardChunker.defaultConfig mixedPunctText ≠
      some mixedPunctClaimed ∧
    PreciseChunker.precise_mixed_punctuation_split mixedPunctText ≠
      mixedPunctClaimed := by
  constructor <;> decide

/-- C4 (amended): on the scenario input the gold-standard engine returns
exactly the two chunks `"Great work! (Nice job.)"` and
`"However, fix the bug; specifically, the timeout."`, and the standalone
precise splitter returns only `["Great work!"]`, dropping the rest of the
text. -/
theorem C4_theorem :
    GoldStandardChunker.gold_standard_chunk_text
        GoldStandardChunker.defaultConfig mixedPunctText =
      some ["Great work! (Nice job.)".toList,
            "However, fix the bug; specifically, the timeout.".toList] ∧
    PreciseChunker.precise_mixed_punctuation_split mixedPunctText =
      ["Great work!".toList] := by
  constructor <;> rfl

/-! ## Generic scan lemmas -/

/-- If the matcher fails on every text whose characters satisfy `P`, a
scan of a `P`-text finds nothing. -/
theorem scanF_none_of_chars (m : Matcher) (P : Char → Prop)
    (h : ∀ prev t, (∀ c ∈ t, P c) → m prev t = none) :
    ∀ s fuel prev, (∀ c ∈ s, P c) → scanF m fuel prev s = ([], s) := by
  intro s
  induction s with
  | nil => intro fuel prev _; cases fuel <;> rfl
  | cons c cs ih =>
    intro fuel prev hs
    cases fuel with
    | zero => rfl
    | succ n =>
      show scanF m (n + 1) prev (c :: cs) = ([], c :: cs)
      rw [scanF, h prev (c :: cs) hs,
        ih n (some c) (fun x hx => hs x (List.mem_cons_of_mem c hx))]
      rfl

/-- `consPre` only changes the leading piece of the first match. -/
theorem consPre_mem (c : Char) (ms : List MatchData) (fin : Str) (md : MatchData)
    (h : md ∈ (scanF.consPre c ms fin).1) :
    ∃ md' ∈ ms, md'.groups = md.groups ∧ md'.tot = md.tot := by
  cases ms with
  | nil => simp [scanF.consPre] at h
  | cons md0 ms' =>
    simp only [scanF.consPre, List.mem_cons] at h
    rcases h with h | h
    · exact ⟨md0, by simp, by rw [h], by rw [h]⟩
    · exact ⟨md, List.mem_cons_of_mem _ h, rfl, rfl⟩

/-- Soundness of the scan driver: every reported match's groups and
total string arise from a successful run of the matcher. -/
theorem scanF_matches (m : Matcher) (Q : List Str → Str → Prop)
    (h : ∀ prev rest r, m prev rest = some r → r.tot ≠ 0 →
         Q (sliceGroups r.groups (rest.take r.tot)) (rest.take r.tot)) :
    ∀ fuel prev s md, md ∈ (scanF m fuel prev s).1 → Q md.groups md.tot := by
  intro fuel
  induction fuel with
  | zero => intro prev s md hmd; simp [scanF] at hmd
  | succ n ih =>
    intro prev s md hmd
    cases s with
    | nil => simp [scanF] at hmd
    | cons c cs =>
      rw [scanF] at hmd
      cases hm : m prev (c :: cs) with
      | none =>
        rw [hm] at hmd
        dsimp only at hmd
        obtain ⟨md', hmem, hg, ht⟩ := consPre_mem c _ _ md hmd
        rw [← hg, ← ht]
        exact ih (some c) cs md' hmem
      | some r =>
        rw [hm] at hmd
        dsimp only at hmd
        by_cases hz : r.tot = 0
        · rw [if_pos hz] at hmd
          obtain ⟨md', hmem, hg, ht⟩ := consPre_mem c _ _ md hmd
          rw [← hg, ← ht]
          exact ih (some c) cs md' hmem
        · rw [if_neg hz] at hmd
          simp only [List.mem_cons] at hmd
          rcases hmd with hmd | hmd
          · rw [hmd]
            exact h prev (c :: cs) r hm hz
          · exact ih _ _ md hmd

theorem consPre_flatten (c : Char) (ms : List MatchData) (fin : Str) :
    flattenScan (scanF.consPre c ms fin).1 (scanF.consPre c ms fin).2 =
      c :: flattenScan ms fin := by
  cases ms with
  | nil => simp [scanF.consPre, flattenScan]
  | cons md0 ms' => simp [scanF.consPre, flattenScan]

/-- The scan decomposes the text: pieces and matches reassemble to the
input. -/
theorem scanF_flatten (m : Matcher) :
    ∀ fuel prev s, flattenScan (scanF m fuel prev s).1 (scanF m fuel prev s).2 = s := by
  intro fuel
  induction fuel with
  | zero => intro prev s; simp [scanF, flattenScan]
  | succ n ih =>
    intro prev s
    cases s with
    | nil => simp [scanF, flattenScan]
    | cons c cs =>
      rw [scanF]
      cases hm : m prev (c :: cs) with
      | none => dsimp only; rw [consPre_flatten, ih]
      | some r =>
        dsimp only
        by_cases hz : r.tot = 0
        · rw [if_pos hz, consPre_flatten, ih]
        · rw [if_neg hz]
          simp only [flattenScan, List.map_cons, List.flatten_cons,
            List.nil_append]
          have hrec := ih ((c :: cs).take r.tot).getLast? ((c :: cs).drop r.tot)
          simp only [flattenScan] at hrec
          rw [List.append_assoc, hrec]
          exact List.take_append_drop _ _

/-- Recursive characterization of match start offsets. -/
def matchStartsR (off : Nat) : List MatchData → List (Nat × MatchData)
  | [] => []
  | md :: ms =>
    (off + md.pre.length, md) ::
      matchStartsR (off + md.pre.length + md.tot.length) ms

theorem matchStarts_fold_aux :
    ∀ (ms : List MatchData) (off : Nat) (acc : List (Nat × MatchData)),
      (ms.foldl (fun (a : Nat × List (Nat × MatchData)) md =>
        (a.1 + md.pre.length + md.tot.length,
         a.2 ++ [(a.1 + md.pre.length, md)])) (off, acc)).2 =
      acc ++ matchStartsR off ms := by
  intro ms
  induction ms with
  | nil => intro off acc; simp [matchStartsR]
  | cons md ms ih =>
    intro off acc
    simp only [List.foldl_cons, matchStartsR]
    rw [ih]
    simp

theorem matchStarts_eq (ms : List MatchData) :
    matchStarts ms = matchStartsR 0 ms := by
  unfold matchStarts
  rw [matchStarts_fold_aux ms 0 []]
  simp

/-- Every entry of `matchStartsR` locates its match inside the
reassembled text. -/
theorem matchStartsR_locate :
    ∀ (ms : List MatchData) (off : Nat) (fin : Str) (p : Nat) (md : MatchData),
      (p, md) ∈ matchStartsR off ms →
      ∃ u v, flattenScan ms fin = u ++ md.tot ++ v ∧ off + u.length = p := by
  intro ms
  induction ms with
  | nil => intro off fin p md h; simp [matchStartsR] at h
  | cons md0 ms ih =>
    intro off fin p md h
    simp only [matchStartsR, List.mem_cons] at h
    rcases h with h | h
    · cases h
      refine ⟨md0.pre, flattenScan ms fin, ?_, rfl⟩
      simp [flattenScan, List.append_assoc]
    · obtain ⟨u, v, hflat, hoff⟩ := ih _ fin p md h
      refine ⟨md0.pre ++ md0.tot ++ u, v, ?_, ?_⟩
      · simp only [flattenScan, List.map_cons, List.flatten_cons]
        simp only [flattenScan] at hflat
        simp only [List.append_assoc]
        rw [hflat]
        simp [List.append_assoc]
      · simp only [List.length_append]
        omega

/-- Every match of `findAll` sits at its reported start position:
`s = u ++ tot ++ v` with `u.length` the start. -/
theorem matchStarts_locate (m : Matcher) (s : Str) (p : Nat) (md : MatchData)
    (h : (p, md) ∈ matchStarts (findAll m s)) :
    ∃ u v, s = u ++ md.tot ++ v ∧ u.length = p := by
  rw [matchStarts_eq] at h
  obtain ⟨u, v, hflat, hoff⟩ := matchStartsR_locate (findAll m s) 0 (scan m s).2 p md h
  refine ⟨u, v, ?_, by omega⟩
  rw [← hflat]
  exact (scanF_flatten m _ none s).symm

/-- Characters at which none of the break patterns of claim C3 can
start: not whitespace, not a comma, not a semicolon. -/
def NoBreakChar (c : Char) : Prop := isSpace c = false ∧ c ≠ ',' ∧ c ≠ ';'

instance : DecidablePred NoBreakChar := fun c => by
  unfold NoBreakChar; infer_instance

theorem runLen_head_false (p : Char → Bool) (c : Char) (cs : Str)
    (h : p c = false) : runLen p (c :: cs) = 0 := by
  simp [runLen, List.takeWhile_cons, h]

theorem mCommaConj_none (prev : Option Char) (t : Str)
    (h : ∀ c ∈ t, NoBreakChar c) : mCommaConj prev t = none := by
  cases t with
  | nil => rfl
  | cons c cs =>
    have hc := h c (by simp)
    unfold mCommaConj
    split
    · rename_i heq; cases heq; exact absurd rfl hc.2.1
    · rfl

theorem mNatConj_none (prev : Option Char) (t : Str)
    (h : ∀ c ∈ t, NoBreakChar c) : mNatConj prev t = none := by
  cases t with
  | nil => rfl
  | cons c cs =>
    have hc := h c (by simp)
    simp [mNatConj, runLen_head_false _ _ _ hc.1]

theorem mNatTrans_none (prev : Option Char) (t : Str)
    (h : ∀ c ∈ t, NoBreakChar c) : mNatTrans prev t = none := by
  cases t with
  | nil => rfl
  | cons c cs =>
    have hc := h c (by simp)
    simp [mNatTrans, runLen_head_false _ _ _ hc.1]

theorem mNatComma_none (prev : Option Char) (t : Str)
    (h : ∀ c ∈ t, NoBreakChar c) : mNatComma prev t = none := by
  cases t with
  | nil => rfl
  | cons c cs =>
    have hc := h c (by simp)
    unfold mNatComma
    split
    · rename_i heq; cases heq; exact absurd rfl hc.2.1
    · rfl

theorem mNatSemi_none (prev : Option Char) (t : Str)
    (h : ∀ c ∈ t, NoBreakChar c) : mNatSemi prev t = none := by
  cases t with
  | nil => rfl
  | cons c cs =>
    have hc := h c (by simp)
    unfold mNatSemi
    split
    · rename_i heq; cases heq; exact absurd rfl hc.2.2
    · rfl

/-- `findAll` of a breakless text is empty (for a matcher with the
`_none` property). -/
theorem findAll_eq_nil (m : Matcher) (P : Char → Prop)
    (h : ∀ prev t, (∀ c ∈ t, P c) → m prev t = none)
    (s : Str) (hs : ∀ c ∈ s, P c) : findAll m s = [] := by
  unfold findAll scan
  rw [scanF_none_of_chars m P h s _ none hs]

theorem pyLstrip_eq_self (s : Str) (h : ∀ c ∈ s, isSpace c = false) :
    pyLstrip s = s := by
  cases s with
  | nil => rfl
  | cons c cs => simp [pyLstrip, List.dropWhile_cons, h c (by simp)]

theorem pyRstrip_eq_self (s : Str) (h : ∀ c ∈ s, isSpace c = false) :
    pyRstrip s = s := by
  unfold pyRstrip
  rw [show s.reverse.dropWhile (isSpace ·) = s.reverse from ?_, List.reverse_reverse]
  · cases hr : s.reverse with
    | nil => rfl
    | cons c cs =>
      have : c ∈ s.reverse := by rw [hr]; simp
      simp [List.dropWhile_cons, h c (List.mem_reverse.mp this)]

theorem pyStrip_eq_self (s : Str) (h : ∀ c ∈ s, isSpace c = false) :
    pyStrip s = s := by
  unfold pyStrip
  rw [pyLstrip_eq_self s h, pyRstrip_eq_self s h]

theorem rfindSpaceBefore_none (s : Str) (hi : Nat)
    (h : ∀ c ∈ s, isSpace c = false) : rfindSpaceBefore s hi = none := by
  unfold rfindSpaceBefore
  rw [show ((s.take hi).enum.filter (fun p => isSpace p.2)) = [] from ?_]
  · rfl
  · rw [List.filter_eq_nil_iff]
    intro a ha
    have h2 : a.2 ∈ s.take hi := by
      have hg := List.mem_enum_iff_getElem?.mp ha
      exact List.get?_mem (by simpa [List.get?_eq_getElem?] using hg)
    simpa using h a.2 (List.mem_of_mem_take h2)

/-! ## Claim C3: no valid split available -/

/-- The hard mid-word splitting that both optimizers actually perform on
a sentence with no break opportunities: slices of exactly `maxs`
characters, the remainder last. -/
def hardChunksF : Nat → Nat → Str → List Str
  | 0, _, _ => []
  | fuel + 1, maxs, s =>
    if s.length ≤ maxs then (if s.isEmpty then [] else [s])
    else s.take maxs :: hardChunksF fuel maxs (s.drop maxs)

def hardChunks (maxs : Nat) (s : Str) : List Str :=
  hardChunksF (s.length + 1) maxs s

theorem matchStarts_nil : matchStarts [] = [] := rfl

/-- On a text with no whitespace, comma or semicolon at all,
`find_optimal_break_point` falls through every break class and returns
`max_pos` itself. -/
theorem find_optimal_nobreaks (s : Str) (maxp : Nat)
    (hc : ∀ c ∈ s, NoBreakChar c) (hlen : maxp < s.length) :
    GoldStandardChunker.find_optimal_break_point s maxp = maxp := by
  unfold GoldStandardChunker.find_optimal_break_point
  rw [if_neg (by omega)]
  have hsub : ∀ c ∈ s.take maxp, NoBreakChar c :=
    fun c hc' => hc c (List.mem_of_mem_take hc')
  have hsub2 : ∀ c ∈ (s.take maxp).drop (maxp - 100), NoBreakChar c :=
    fun c hc' => hsub c (List.mem_of_mem_drop hc')
  rw [findAll_eq_nil mCommaConj NoBreakChar mCommaConj_none _ hsub]
  simp only [naturalBreaks, List.foldl_cons, List.foldl_nil,
    findAll_eq_nil mNatConj NoBreakChar mNatConj_none _ hsub2,
    findAll_eq_nil mNatTrans NoBreakChar mNatTrans_none _ hsub2,
    findAll_eq_nil mNatComma NoBreakChar mNatComma_none _ hsub2,
    findAll_eq_nil mNatSemi NoBreakChar mNatSemi_none _ hsub2,
    matchStarts_nil, List.getLast?_nil]
  rw [rfindSpaceBefore_none s maxp (fun c h' => (hc c h').1)]

/-- The gold forced-split loop on a breakless over-long sentence
produces exactly the hard `max_size` slices. -/
theorem chunkLongLoop_hard (cfg : GoldStandardChunker.Config)
    (hmax : 1 ≤ cfg.max_size) :
    ∀ fuel s chunks, (∀ c ∈ s, NoBreakChar c) → s.length < fuel →
      GoldStandardChunker.chunkLongLoopF cfg fuel s chunks =
        some (chunks ++ hardChunksF fuel cfg.max_size s) := by
  intro fuel
  induction fuel with
  | zero => intro s chunks _ hf; omega
  | succ n ih =>
    intro s chunks hc hf
    by_cases hle : s.length ≤ cfg.max_size
    · rw [GoldStandardChunker.chunkLongLoopF, hardChunksF,
        if_neg (by simp; omega), if_pos hle]
      cases s <;> simp
    · have hgt : cfg.max_size < s.length := by omega
      have hne : s ≠ [] := by intro he; rw [he] at hgt; simp at hgt
      have hnosp : ∀ c ∈ s.take cfg.max_size, isSpace c = false :=
        fun c h' => (hc c (List.mem_of_mem_take h')).1
      have hdrop : ∀ c ∈ s.drop cfg.max_size, NoBreakChar c :=
        fun c h' => hc c (List.mem_of_mem_drop h')
      have htne : (s.take cfg.max_size).isEmpty = false := by
        rw [List.isEmpty_eq_false_iff_exists_mem]
        cases s with
        | nil => simp at hgt
        | cons a l =>
          exact ⟨a, by rw [show cfg.max_size = (cfg.max_size - 1) + 1 by omega]; simp⟩
      simp only [GoldStandardChunker.chunkLongLoopF, hardChunksF,
        find_optimal_nobreaks s cfg.max_size hc hgt,
        if_neg (show ¬(cfg.max_size = 0) by omega), ite_self,
        pyStrip_eq_self _ hnosp,
        pyStrip_eq_self _ (fun c h' => (hdrop c h').1), htne,
        if_pos (show (!s.isEmpty && decide (s.length > cfg.max_size)) = true by
          simp [hne]; omega),
        if_neg hle, Bool.false_eq_true, if_false]
      rw [ih (s.drop cfg.max_size) (chunks ++ [s.take cfg.max_size]) hdrop
        (by simp; omega)]
      simp

/-- The smart last-resort loop does the same. -/
theorem lastResort_hard (cfg : SmartChunker.Config)
    (hmax : 1 ≤ cfg.max_size) :
    ∀ fuel s chunks, (∀ c ∈ s, NoBreakChar c) → s.length < fuel →
      SmartChunker.lastResortF cfg fuel s chunks =
        some (chunks ++ hardChunksF fuel cfg.max_size s) := by
  intro fuel
  induction fuel with
  | zero => intro s chunks _ hf; omega
  | succ n ih =>
    intro s chunks hc hf
    by_cases hle : s.length ≤ cfg.max_size
    · rw [SmartChunker.lastResortF, hardChunksF, if_neg (by simp; omega),
        if_pos hle]
      cases s <;> simp
    · have hgt : cfg.max_size < s.length := by omega
      have hdrop : ∀ c ∈ s.drop cfg.max_size, NoBreakChar c :=
        fun c h' => hc c (List.mem_of_mem_drop h')
      simp only [SmartChunker.lastResortF, hardChunksF,
        rfindSpaceBefore_none s cfg.max_size (fun c h' => (hc c h').1),
        pyLstrip_eq_self _ (fun c h' => (hdrop c h').1),
        if_pos hgt, if_neg hle]
      rw [ih (s.drop cfg.max_size) (chunks ++ [s.take cfg.max_size]) hdrop
        (by simp; omega)]
      simp

theorem findSubIdx_none (p0 : Char) (prest : Str) (s : Str)
    (h : ∀ c ∈ s, c ≠ p0) : SmartChunker.findSubIdx (p0 :: prest) s = none := by
  induction s with
  | nil => rfl
  | cons c cs ih =>
    unfold SmartChunker.findSubIdx
    have hs : startsL (p0 :: prest) (c :: cs) = false := by
      have := h c (by simp)
      simp [startsL]
      intro he
      exact absurd he.symm this
    rw [hs, ih (fun x hx => h x (by simp [hx]))]
    rfl

/-- No entry of `break_points` occurs in a breakless sentence. -/
theorem firstValidBp_noBreaks (cfg : SmartChunker.Config) (s : Str)
    (hc : ∀ c ∈ s, NoBreakChar c) :
    SmartChunker.firstValidBp cfg s SmartChunker.smartBreakPoints = none := by
  have hcomma : ∀ c ∈ s, c ≠ ',' := fun c h' => (hc c h').2.1
  have hsemi : ∀ c ∈ s, c ≠ ';' := fun c h' => (hc c h').2.2
  have hspace : ∀ c ∈ s, c ≠ ' ' := by
    intro c h' he
    have := (hc c h').1
    rw [he] at this
    simp [isSpace] at this
  have e1 : (", ".toList : Str) = ',' :: " ".toList := rfl
  have e2 : ("; ".toList : Str) = ';' :: " ".toList := rfl
  have e3 : (" and ".toList : Str) = ' ' :: "and ".toList := rfl
  have e4 : (" but ".toList : Str) = ' ' :: "but ".toList := rfl
  have e5 : (" or ".toList : Str) = ' ' :: "or ".toList := rfl
  have e6 : (" because ".toList : Str) = ' ' :: "because ".toList := rfl
  have e7 : (" although ".toList : Str) = ' ' :: "although ".toList := rfl
  simp only [SmartChunker.smartBreakPoints, SmartChunker.firstValidBp,
    e1, e2, e3, e4, e5, e6, e7,
    findSubIdx_none ',' _ s hcomma, findSubIdx_none ';' _ s hsemi,
    findSubIdx_none ' ' _ s hspace]

theorem hardChunksF_flatten (maxs : Nat) (hmax : 1 ≤ maxs) :
    ∀ fuel s, s.length < fuel → (hardChunksF fuel maxs s).flatten = s := by
  intro fuel
  induction fuel with
  | zero => intro s hf; omega
  | succ n ih =>
    intro s hf
    rw [hardChunksF]
    by_cases hle : s.length ≤ maxs
    · rw [if_pos hle]; cases s <;> simp
    · rw [if_neg hle]
      simp only [List.flatten_cons]
      rw [ih (s.drop maxs) (by simp [List.length_drop]; omega)]
      exact List.take_append_drop maxs s

/-- C3 counterexample: a 500-character sentence with no whitespace or
punctuation and `max_size = 300` is *not* returned unmodified as a single
oversized chunk: both optimizers hard-split it into a 300-character and a
200-character chunk. -/
theorem C3_counterexample :
    GoldStandardChunker.chunk_long_sentence ⟨150, 300, true, 40⟩
        (List.replicate 500 'x') =
      some [List.replicate 300 'x', List.replicate 200 'x'] ∧
    SmartChunker.force_split_sentence ⟨250, 300, 100⟩
        (List.replicate 500 'x') =
      some [List.replicate 300 'x', List.replicate 200 'x'] ∧
    some [List.replicate 300 'x', List.replicate 200 'x'] ≠
      some [List.replicate 500 'x'] := by
  refine ⟨by rfl, by rfl, by decide⟩

/-- C3 (amended): on a sentence longer than `max_size` in which no break
class yields any candidate (no whitespace, comma or semicolon), the
break-point optimizers never raise an error, but they do not return the
original string unmodified either: both `chunk_long_sentence` and
`_force_split_sentence` hard-split it mid-word into slices of exactly
`max_size` characters (remainder last), whose concatenation restores the
sentence exactly. -/
theorem C3_theorem (cfg : GoldStandardChunker.Config)
    (scfg : SmartChunker.Config) (s : Str)
    (hc : ∀ c ∈ s, NoBreakChar c) :
    (1 ≤ cfg.max_size → cfg.max_size < s.length →
      GoldStandardChunker.chunk_long_sentence cfg s =
        some (hardChunks cfg.max_size s)) ∧
    (1 ≤ scfg.max_size → scfg.max_size < s.length →
      SmartChunker.force_split_sentence scfg s =
        some (hardChunks scfg.max_size s)) ∧
    (∀ maxs, 1 ≤ maxs → (hardChunks maxs s).flatten = s) := by
  refine ⟨?_, ?_, fun maxs hm => hardChunksF_flatten maxs hm _ s (by omega)⟩
  · intro hmax hlen
    have hnone : GoldStandardChunker.chunkLongCommaSplit cfg s = none := by
      unfold GoldStandardChunker.chunkLongCommaSplit
      rw [findAll_eq_nil mCommaConj NoBreakChar mCommaConj_none s hc,
        matchStarts_nil]
      simp
    unfold GoldStandardChunker.chunk_long_sentence
    rw [hnone]
    dsimp only
    rw [if_neg (by omega)]
    exact chunkLongLoop_hard cfg hmax (s.length + 1) s [] hc (by omega)
  · intro hmax hlen
    unfold SmartChunker.force_split_sentence
    cases hs : s.length with
    | zero => omega
    | succ k =>
      rw [SmartChunker.forceSplitF, firstValidBp_noBreaks scfg s hc]
      have := lastResort_hard scfg hmax (k + 1 + 1) s [] hc (by omega)
      rw [this]
      simp [hardChunks, hs]

/-- C3 witness: the amended statement applied to the concrete
500-character scenario. -/
theorem C3_theorem_witness :
    GoldStandardChunker.chunk_long_sentence ⟨150, 300, true, 40⟩
        (List.replicate 500 'x') =
      some (hardChunks 300 (List.replicate 500 'x')) :=
  (C3_theorem ⟨150, 300, true, 40⟩ ⟨250, 300, 100⟩ (List.replicate 500 'x')
    (by decide)).1 (by decide) (by decide)

/-! ## Support lemmas for claim C5 -/

theorem tryAltsCI_spec (k : Nat → Str → Option MRes) :
    ∀ (alts : List Str) (s : Str) (r : MRes), tryAltsCI alts s k = some r →
      ∃ a ∈ alts, startsCI a s = true ∧ k a.length (s.drop a.length) = some r := by
  intro alts
  induction alts with
  | nil => intro s r h; simp [tryAltsCI] at h
  | cons a rest ih =>
    intro s r h
    unfold tryAltsCI at h
    split at h
    · rename_i hstarts
      split at h
      · rename_i r' hk
        cases h
        exact ⟨a, by simp, hstarts, hk⟩
      · obtain ⟨a', ha', hs', hk'⟩ := ih s r h
        exact ⟨a', List.mem_cons_of_mem _ ha', hs', hk'⟩
    · obtain ⟨a', ha', hs', hk'⟩ := ih s r h
      exact ⟨a', List.mem_cons_of_mem _ ha', hs', hk'⟩

theorem startsL_length : ∀ (p s : Str), startsL p s = true → p.length ≤ s.length := by
  intro p
  induction p with
  | nil => intro s _; simp
  | cons a p ih =>
    intro s h
    cases s with
    | nil => simp [startsL] at h
    | cons c cs =>
      simp only [startsL, Bool.and_eq_true] at h
      simpa using ih cs h.2

/-- A successful case-insensitive prefix match on a non-empty pattern
pins down the head character of the text up to lower-casing. -/
theorem startsCI_head (a0 : Char) (arest s : Str)
    (h : startsCI (a0 :: arest) s = true) :
    ∃ c cs', s = c :: cs' ∧ lowerC c = a0 := by
  cases s with
  | nil => simp [startsCI, lowerS, startsL] at h
  | cons c cs =>
    refine ⟨c, cs, rfl, ?_⟩
    unfold startsCI at h
    rw [show ((c :: cs).take (a0 :: arest).length) = c :: cs.take arest.length by simp] at h
    simp only [lowerS, List.map_cons, startsL, Bool.and_eq_true,
      decide_eq_true_eq] at h
    exact h.1.symm

/-- If a character is a whitespace character, lower-casing leaves it
unchanged. -/
theorem lowerC_of_space (c : Char) (h : isSpace c = true) : lowerC c = c := by
  simp only [isSpace, Bool.or_eq_true, decide_eq_true_eq] at h
  rcases h with ((((rfl | rfl) | rfl) | rfl) | rfl) | rfl <;> rfl

theorem mem_dropWhile_of_not (p : Char → Bool) (l : Str) (c : Char)
    (hc : c ∈ l) (hp : p c = false) : c ∈ l.dropWhile p := by
  induction l with
  | nil => simp at hc
  | cons a l ih =>
    rw [List.dropWhile_cons]
    by_cases hpa : p a = true
    · rw [if_pos hpa]
      rcases List.mem_cons.mp hc with rfl | hcl
      · rw [hp] at hpa; exact absurd hpa (by simp)
      · exact ih hcl
    · rw [if_neg hpa]; exact hc

/-- A string containing a non-whitespace character does not strip to
empty. -/
theorem pyStrip_ne_nil (l : Str) (c : Char) (hc : c ∈ l)
    (hp : isSpace c = false) : pyStrip l ≠ [] := by
  intro he
  have h1 : c ∈ pyLstrip l := mem_dropWhile_of_not _ l c hc hp
  have h2 : c ∈ pyStrip l := by
    unfold pyStrip pyRstrip
    exact List.mem_reverse.mpr
      (mem_dropWhile_of_not _ _ c (List.mem_reverse.mpr h1) hp)
  rw [he] at h2
  simp at h2

theorem matchStartsR_mem :
    ∀ (ms : List MatchData) (off p : Nat) (md : MatchData),
      (p, md) ∈ matchStartsR off ms → md ∈ ms := by
  intro ms
  induction ms with
  | nil => intro off p md h; simp [matchStartsR] at h
  | cons md0 ms ih =>
    intro off p md h
    simp only [matchStartsR, List.mem_cons] at h
    rcases h with h | h
    · cases h; simp
    · exact List.mem_cons_of_mem _ (ih _ _ _ h)

/-- The comma+conjunction matcher produces matches of the shape
`"," ++ whitespace ++ conjunction ++ whitespace`: the first capture group
is the comma, and the conjunction supplies a non-whitespace character
after the head. -/
theorem mCommaConj_Q (prev : Option Char) (rest : Str) (r : MRes)
    (h : mCommaConj prev rest = some r) (hz : r.tot ≠ 0) :
    (sliceGroups r.groups (rest.take r.tot)).headD [] = [','] ∧
    ∃ tl, rest.take r.tot = ',' :: tl ∧ ∃ c ∈ tl, isSpace c = false := by
  unfold mCommaConj at h
  split at h
  case h_2 => exact absurd h (by simp)
  case h_1 rest2 =>
  dsimp only at h
  split at h
  · exact absurd h (by simp)
  rename_i hw
  obtain ⟨a, ha, hstarts, hk⟩ := tryAltsCI_spec _ _ _ _ h
  split at hk
  · exact absurd hk (by simp)
  rename_i hw2
  cases hk
  dsimp only at hz ⊢
  set w := runLen (isSpace ·) rest2 with hwdef
  have hane : a ≠ [] := by
    simp only [List.mem_cons, List.not_mem_nil, or_false] at ha
    rcases ha with rfl | rfl | rfl | rfl | rfl <;> decide
  obtain ⟨a0, arest, rfl⟩ : ∃ a0 arest, a = a0 :: arest := by
    cases a with
    | nil => exact absurd rfl hane
    | cons x xs => exact ⟨x, xs, rfl⟩
  obtain ⟨c, cs', hdrop, hlc⟩ := startsCI_head a0 arest (rest2.drop w) hstarts
  have hcs : isSpace c = false := by
    by_cases hsp : isSpace c = true
    · exfalso
      rw [lowerC_of_space c hsp] at hlc
      simp only [List.mem_cons, List.not_mem_nil, or_false] at ha
      rcases ha with h' | h' | h' | h' | h' <;>
        (injection h' with h1 h2; rw [hlc, h1] at hsp; simp [isSpace] at hsp)
    · simpa using hsp
  have hw' : w ≤ rest2.length := by
    have hne : rest2.drop w ≠ [] := by rw [hdrop]; simp
    by_contra hgt
    push_neg at hgt
    rw [List.drop_eq_nil_of_le (by omega)] at hne
    exact hne rfl
  set n := (a0 :: arest).length with hndef
  set w2 := runLen (fun x => isSpace x) ((rest2.drop w).drop n) with hw2def
  have hn1 : 1 ≤ n := by rw [hndef]; simp
  have h1 : (1 : Nat) + w + n + w2 = (w + n + w2) + 1 := by omega
  refine ⟨?_, ?_⟩
  · rw [h1, List.take_succ_cons]
    rfl
  · rw [h1, List.take_succ_cons]
    refine ⟨_, rfl, c, ?_, hcs⟩
    have hsplit : rest2 = rest2.take w ++ (c :: cs') := by
      rw [← hdrop]; exact (List.take_append_drop w rest2).symm
    conv_lhs => rw [hsplit]
    rw [List.take_append_eq_append_take]
    refine List.mem_append.mpr (Or.inr ?_)
    have hlen : (rest2.take w).length = w := by
      rw [List.length_take]
      omega
    rw [hlen]
    have h2 : w + n + w2 - w = (n + w2 - 1) + 1 := by omega
    rw [h2, List.take_succ_cons]
    simp

namespace GoldStandardChunker

theorem pickBest60_fold (len : Nat) :
    ∀ (ms : List (Nat × MatchData)) (b : Nat × MatchData),
      ∃ sm, ms.foldl
          (fun acc sm =>
            match acc with
            | none => some sm
            | some b => if dist60 len sm.1 < dist60 len b.1 then some sm else some b)
          (some b) = some sm ∧
        (sm = b ∨ sm ∈ ms) ∧ dist60 len sm.1 ≤ dist60 len b.1 ∧
        ∀ x ∈ ms, dist60 len sm.1 ≤ dist60 len x.1 := by
  intro ms
  induction ms with
  | nil => intro b; exact ⟨b, rfl, Or.inl rfl, le_refl _, by simp⟩
  | cons m ms ih =>
    intro b
    rw [List.foldl_cons]
    by_cases hlt : dist60 len m.1 < dist60 len b.1
    · obtain ⟨sm, hfold, hmem, hle, hall⟩ := ih m
      rw [show (match some b with
          | none => some m
          | some bb => if dist60 len m.1 < dist60 len bb.1 then some m else some bb) =
          some m from if_pos hlt]
      refine ⟨sm, hfold, ?_, by omega, ?_⟩
      · rcases hmem with rfl | hm
        · exact Or.inr (by simp)
        · exact Or.inr (List.mem_cons_of_mem _ hm)
      · intro x hx
        rcases List.mem_cons.mp hx with rfl | hx'
        · exact hle
        · exact hall x hx'
    · obtain ⟨sm, hfold, hmem, hle, hall⟩ := ih b
      rw [show (match some b with
          | none => some m
          | some bb => if dist60 len m.1 < dist60 len bb.1 then some m else some bb) =
          some b from if_neg hlt]
      refine ⟨sm, hfold, ?_, hle, ?_⟩
      · rcases hmem with rfl | hm
        · exact Or.inl rfl
        · exact Or.inr (List.mem_cons_of_mem _ hm)
      · intro x hx
        rcases List.mem_cons.mp hx with rfl | hx'
        · omega
        · exact hall x hx'

/-- `pickBest60` returns a member of the list that minimizes the
(exact-rational) distance to the 60% position. -/
theorem pickBest60_spec (len : Nat) (ms : List (Nat × MatchData))
    (h : ms ≠ []) :
    ∃ sm ∈ ms, pickBest60 len ms = some sm ∧
      ∀ sm' ∈ ms, dist60 len sm.1 ≤ dist60 len sm'.1 := by
  cases ms with
  | nil => exact absurd rfl h
  | cons m0 rest =>
    obtain ⟨sm, hfold, hmem, hle, hall⟩ := pickBest60_fold len rest m0
    refine ⟨sm, ?_, ?_, ?_⟩
    · rcases hmem with rfl | hm
      · simp
      · exact List.mem_cons_of_mem _ hm
    · unfold pickBest60
      rw [List.foldl_cons]
      exact hfold
    · intro sm' hsm'
      rcases List.mem_cons.mp hsm' with rfl | hx'
      · exact hle
      · exact hall sm' hx'

end GoldStandardChunker

/-! ## Claim C5: the 60%-biased comma+conjunction selection -/

/-- The C5 scenario sentence: 400 characters with a single
comma+`"and"` whose comma sits at index 239 (the 60% position of a
400-character string is 240). -/
def c5sentence : Str :=
  List.replicate 239 'x' ++ ", and ".toList ++ List.replicate 155 'y'

def c5first : Str := List.replicate 239 'x' ++ [',']

def c5second : Str := "and ".toList ++ List.replicate 155 'y'

/-- C5: when `chunk_long_sentence` splits at the comma+conjunction
class, it selects (by exact 60%-distance, embedding the float constant
`0.6`) the match whose start minimizes `|start - 0.6*len|`, first match
winning ties, and splits right after that comma; in particular the
400-character scenario with `max_size = 300`, `min_size = 50` yields
exactly two chunks of 240 and 159 characters, both at least 50 long. -/
theorem C5_theorem :
    (∀ (cfg : GoldStandardChunker.Config) (s : Str),
      matchStarts (findAll mCommaConj s) ≠ [] →
      cfg.target_size ≤ s.length →
      ∃ sm ∈ matchStarts (findAll mCommaConj s),
        GoldStandardChunker.pickBest60 s.length
          (matchStarts (findAll mCommaConj s)) = some sm ∧
        (∀ sm' ∈ matchStarts (findAll mCommaConj s),
          GoldStandardChunker.dist60 s.length sm.1 ≤
            GoldStandardChunker.dist60 s.length sm'.1) ∧
        GoldStandardChunker.chunk_long_sentence cfg s =
          some [pyStrip (s.take (sm.1 + 1)), pyStrip (s.drop (sm.1 + 1))]) ∧
    (GoldStandardChunker.chunk_long_sentence ⟨150, 300, true, 50⟩ c5sentence =
        some [c5first, c5second] ∧
      c5first.length = 240 ∧ c5second.length = 159 ∧
      50 ≤ c5first.length ∧ 50 ≤ c5second.length) := by
  constructor
  · intro cfg s hne htarget
    obtain ⟨sm, hsm, hpick, hmin⟩ :=
      GoldStandardChunker.pickBest60_spec s.length (matchStarts (findAll mCommaConj s)) hne
    have hQ := scanF_matches mCommaConj
      (fun gs tot => gs.headD [] = [','] ∧
        ∃ tl, tot = ',' :: tl ∧ ∃ c ∈ tl, isSpace c = false)
      (fun prev rest r hm hz => mCommaConj_Q prev rest r hm hz)
      (s.length + 1) none s sm.2
      (by
        have := matchStartsR_mem (findAll mCommaConj s) 0 sm.1 sm.2
        rw [matchStarts_eq] at hsm
        exact this (by simpa using hsm))
    obtain ⟨hgroup, tl, htot, c, hctl, hcsp⟩ := hQ
    obtain ⟨u, v, hsplit, hulen⟩ :=
      matchStarts_locate mCommaConj s sm.1 sm.2 hsm
    have hsplit' : s = u ++ (',' :: (tl ++ v)) := by
      rw [hsplit, htot]
      simp [List.append_assoc]
    have htake : s.take (sm.1 + 1) = u ++ [','] := by
      rw [hsplit', List.take_append_eq_append_take,
        List.take_of_length_le (by omega), hulen,
        show sm.1 + 1 - sm.1 = 1 by omega]
      rfl
    have hdrop : s.drop (sm.1 + 1) = tl ++ v := by
      rw [hsplit', List.drop_append_eq_append_drop,
        List.drop_eq_nil_of_le (by omega), hulen,
        show sm.1 + 1 - sm.1 = 1 by omega]
      rfl
    have hfirst : pyStrip (s.take (sm.1 + 1)) ≠ [] := by
      rw [htake]
      exact pyStrip_ne_nil _ ',' (by simp) (by decide)
    have hsecond : pyStrip (s.drop (sm.1 + 1)) ≠ [] := by
      rw [hdrop]
      exact pyStrip_ne_nil _ c (by simp [hctl]) hcsp
    refine ⟨sm, hsm, hpick, hmin, ?_⟩
    have hbranch : GoldStandardChunker.chunkLongCommaSplit cfg s =
        some [pyStrip (s.take (sm.1 + 1)), pyStrip (s.drop (sm.1 + 1))] := by
      unfold GoldStandardChunker.chunkLongCommaSplit
      rw [if_pos (by
        simp only [Bool.and_eq_true, Bool.not_eq_true', List.isEmpty_iff,
          decide_eq_true_eq, ge_iff_le]
        exact ⟨by simpa [List.isEmpty_iff] using hne, htarget⟩), hpick]
      dsimp only
      rw [hgroup]
      simp only [List.length_singleton]
      rw [if_pos (by
        simp only [Bool.and_eq_true, Bool.not_eq_true']
        exact ⟨by simpa [List.isEmpty_iff] using hfirst,
               by simpa [List.isEmpty_iff] using hsecond⟩)]
    unfold GoldStandardChunker.chunk_long_sentence
    rw [hbranch]
  · refine ⟨by rfl, by decide, by decide, by decide, by decide⟩

/-- C5 witness: the general selection statement applied to the scenario
sentence. -/
theorem C5_theorem_witness :
    ∃ sm ∈ matchStarts (findAll mCommaConj c5sentence),
      GoldStandardChunker.pickBest60 c5sentence.length
        (matchStarts (findAll mCommaConj c5sentence)) = some sm ∧
      (∀ sm' ∈ matchStarts (findAll mCommaConj c5sentence),
        GoldStandardChunker.dist60 c5sentence.length sm.1 ≤
          GoldStandardChunker.dist60 c5sentence.length sm'.1) ∧
      GoldStandardChunker.chunk_long_sentence ⟨150, 300, true, 50⟩ c5sentence =
        some [pyStrip (c5sentence.take (sm.1 + 1)),
              pyStrip (c5sentence.drop (sm.1 + 1))] :=
  C5_theorem.1 ⟨150, 300, true, 50⟩ c5sentence (by decide) (by decide)

/-! ## Claim C7: the language classifier

The claim-side reading of "case-insensitive whole-word matches of a fixed
function-word list" is formalized with `wordTokens`: the maximal runs of
word characters of the (lowered) text; a whole-word match of the list is
a token equal to a listed word.  `countWordMatches` (the embedding of the
code's `len(re.findall(r'\b(w1|...)\b', text.lower()))`) is proved equal
to the number of listed tokens. -/

/-- Maximal word-character runs of a string, in order. -/
def wordTokensAcc : Str → Str → List Str
  | cur, [] => if cur.isEmpty then [] else [cur.reverse]
  | cur, c :: cs =>
    if isWordChar c then wordTokensAcc (c :: cur) cs
    else if cur.isEmpty then wordTokensAcc [] cs
    else cur.reverse :: wordTokensAcc [] cs

def wordTokens (s : Str) : List Str := wordTokensAcc [] s

/-- The number of whole-word matches of a fixed word list: the number of
word-character runs equal to a listed word. -/
def specWordCount (words : List Str) (s : Str) : Nat :=
  (wordTokens s).countP (fun tok => decide (tok ∈ words))

theorem wordTokens_nonword (c : Char) (cs : Str) (h : isWordChar c = false) :
    wordTokens (c :: cs) = wordTokens cs := by
  show wordTokensAcc [] (c :: cs) = wordTokensAcc [] cs
  conv_lhs => rw [wordTokensAcc]
  rw [h]
  simp

theorem wordTokensAcc_run (cur : Str) (hcur : cur ≠ []) :
    ∀ cs, wordTokensAcc cur cs =
      (cur.reverse ++ cs.takeWhile (isWordChar ·)) ::
        wordTokens (cs.dropWhile (isWordChar ·)) := by
  intro cs
  induction cs generalizing cur with
  | nil =>
    unfold wordTokensAcc
    rw [if_neg (by simpa [List.isEmpty_iff] using hcur)]
    simp [wordTokens, wordTokensAcc]
  | cons d ds ih =>
    by_cases hd : isWordChar d = true
    · conv_lhs => rw [wordTokensAcc]
      rw [if_pos hd]
      rw [ih (d :: cur) (by simp)]
      simp [List.takeWhile_cons, List.dropWhile_cons, hd]
    · conv_lhs => rw [wordTokensAcc]
      rw [if_neg (by simpa using hd),
        if_neg (by simpa [List.isEmpty_iff] using hcur)]
      simp only [List.takeWhile_cons, List.dropWhile_cons]
      rw [if_neg (by simpa using hd), if_neg (by simpa using hd)]
      rw [show wordTokensAcc [] ds = wordTokens ds from rfl,
        ← wordTokens_nonword d ds (by simpa using hd)]
      simp [wordTokens]

theorem wordTokens_word (c : Char) (cs : Str) (h : isWordChar c = true) :
    wordTokens (c :: cs) =
      (c :: cs.takeWhile (isWordChar ·)) ::
        wordTokens (cs.dropWhile (isWordChar ·)) := by
  show wordTokensAcc [] (c :: cs) = _
  conv_lhs => rw [wordTokensAcc]
  rw [h]
  simp only [if_true]
  rw [wordTokensAcc_run [c] (by simp) cs]
  simp

theorem startsL_take (a : Str) : ∀ s, startsL a s = true → s.take a.length = a := by
  induction a with
  | nil => intro s _; simp
  | cons x xs ih =>
    intro s h
    cases s with
    | nil => simp [startsL] at h
    | cons c cs =>
      simp only [startsL, Bool.and_eq_true, decide_eq_true_eq] at h
      obtain ⟨rfl, h2⟩ := h
      simp only [List.length_cons, List.take_succ_cons]
      rw [ih cs h2]

theorem startsL_of_take (a : Str) : ∀ s, s.take a.length = a → startsL a s = true := by
  induction a with
  | nil => intro s _; simp [startsL]
  | cons x xs ih =>
    intro s h
    cases s with
    | nil => simp at h
    | cons c cs =>
      simp only [List.length_cons, List.take_succ_cons, List.cons.injEq] at h
      simp only [startsL, Bool.and_eq_true, decide_eq_true_eq]
      exact ⟨h.1.symm, ih cs h.2⟩

theorem takeWhile_append_all (p : Char → Bool) (a : Str)
    (h : ∀ ch ∈ a, p ch = true) :
    ∀ rest, (a ++ rest).takeWhile p = a ++ rest.takeWhile p := by
  intro rest
  induction a with
  | nil => simp
  | cons x xs ih =>
    simp only [List.cons_append, List.takeWhile_cons, h x (by simp)]
    rw [ih (fun ch hch => h ch (by simp [hch]))]
    simp

theorem dropWhile_append_all (p : Char → Bool) (a : Str)
    (h : ∀ ch ∈ a, p ch = true) :
    ∀ rest, (a ++ rest).dropWhile p = rest.dropWhile p := by
  intro rest
  induction a with
  | nil => simp
  | cons x xs ih =>
    simp only [List.cons_append, List.dropWhile_cons, h x (by simp)]
    rw [ih (fun ch hch => h ch (by simp [hch]))]
    simp

theorem dropWhile_head_false (p : Char → Bool) :
    ∀ (s : Str) (e : Char) (es : Str), s.dropWhile p = e :: es → p e = false := by
  intro s
  induction s with
  | nil => intro e es h; simp at h
  | cons c cs ih =>
    intro e es h
    rw [List.dropWhile_cons] at h
    by_cases hc : p c = true
    · rw [if_pos hc] at h
      exact ih e es h
    · rw [if_neg hc] at h
      cases h
      simpa using hc

/-- A listed word matches (as prefix, with a word boundary after) exactly
when it equals the leading word-character run. -/
theorem word_match_iff_run (a s : Str)
    (haw : ∀ ch ∈ a, isWordChar ch = true) :
    (startsL a s = true ∧ wordBoundaryAfter (s.drop a.length) = true) ↔
      a = s.takeWhile (isWordChar ·) := by
  constructor
  · rintro ⟨hst, hb⟩
    have hs : s = a ++ s.drop a.length := by
      conv_lhs => rw [← List.take_append_drop a.length s]
      rw [startsL_take a s hst]
    conv_rhs => rw [hs]
    rw [takeWhile_append_all _ a haw]
    cases hrest : s.drop a.length with
    | nil => simp
    | cons e es =>
      rw [hrest] at hb
      rw [List.takeWhile_cons, if_neg (by simpa [wordBoundaryAfter] using hb)]
      simp
  · intro heq
    have hsd : a ++ s.dropWhile (isWordChar ·) = s := by
      rw [heq]
      exact List.takeWhile_append_dropWhile _ _
    constructor
    · apply startsL_of_take
      conv_lhs => rw [← hsd]
      rw [List.take_left]
    · conv_lhs => rw [← hsd]
      rw [List.drop_left]
      cases hdw : s.dropWhile (isWordChar ·) with
      | nil => rfl
      | cons e es =>
        simpa [wordBoundaryAfter] using dropWhile_head_false _ s e es hdw

theorem take_takeWhile_len (p : Char → Bool) :
    ∀ s : Str, s.take (s.takeWhile p).length = s.takeWhile p := by
  intro s
  induction s with
  | nil => rfl
  | cons c cs ih =>
    by_cases hc : p c = true
    · rw [List.takeWhile_cons, if_pos hc]
      simp only [List.length_cons, List.take_succ_cons]
      rw [ih]
    · rw [List.takeWhile_cons, if_neg hc]
      rfl

theorem drop_takeWhile_len (p : Char → Bool) :
    ∀ s : Str, s.drop (s.takeWhile p).length = s.dropWhile p := by
  intro s
  induction s with
  | nil => rfl
  | cons c cs ih =>
    by_cases hc : p c = true
    · rw [List.takeWhile_cons, if_pos hc, List.dropWhile_cons, if_pos hc]
      simp only [List.length_cons, List.drop_succ_cons]
      exact ih
    · rw [List.takeWhile_cons, if_neg hc, List.dropWhile_cons, if_neg hc]
      rfl

theorem dropWhile_dropWhile (p : Char → Bool) (s : Str) :
    (s.dropWhile p).dropWhile p = s.dropWhile p := by
  cases h : s.dropWhile p with
  | nil => rfl
  | cons e es =>
    have he : p e = false := dropWhile_head_false p s e es h
    rw [List.dropWhile_cons, if_neg (by simp [he])]

/-- For a word list whose entries are nonempty all-word-character strings,
the alternation with trailing boundary check matches iff the leading
word-character run of the text is one of the listed words. -/
theorem tryAlts_word (s : Str) :
    ∀ words : List Str,
      (∀ a ∈ words, a ≠ [] ∧ ∀ ch ∈ a, isWordChar ch = true) →
      tryAlts words s (fun n rest =>
          if wordBoundaryAfter rest then some ⟨[n], n⟩ else none) =
        if s.takeWhile (fun x => isWordChar x) ∈ words
        then some ⟨[(s.takeWhile (fun x => isWordChar x)).length],
                   (s.takeWhile (fun x => isWordChar x)).length⟩
        else none := by
  intro words
  induction words with
  | nil => intro _; simp [tryAlts]
  | cons a rest ih =>
    intro hW
    have ha := hW a (by simp)
    have hih := ih (fun b hb => hW b (List.mem_cons_of_mem _ hb))
    by_cases heq : a = s.takeWhile (fun x => isWordChar x)
    · have hm := (word_match_iff_run a s ha.2).mpr heq
      have hmem : s.takeWhile (fun x => isWordChar x) ∈ a :: rest := by
        rw [← heq]; exact List.mem_cons_self a rest
      rw [if_pos hmem]
      unfold tryAlts
      rw [if_pos hm.1]
      rw [if_pos hm.2, heq]
    · have hmem2 : (s.takeWhile (fun x => isWordChar x) ∈ a :: rest) ↔
          (s.takeWhile (fun x => isWordChar x) ∈ rest) := by
        simp only [List.mem_cons]
        constructor
        · rintro (h | h)
          · exact absurd h.symm heq
          · exact h
        · exact Or.inr
      unfold tryAlts
      by_cases hst : startsL a s = true
      · have hb : wordBoundaryAfter (s.drop a.length) = false := by
          cases hbv : wordBoundaryAfter (s.drop a.length)
          · rfl
          · exact absurd (heq ((word_match_iff_run a s ha.2).mp ⟨hst, hbv⟩))
              (fun hc => hc)
        rw [if_pos hst]
        rw [if_neg (show ¬(wordBoundaryAfter (s.drop a.length) = true) by
          simp [hb])]
        exact hih.trans (if_congr hmem2.symm rfl rfl)
      · rw [if_neg hst]
        exact hih.trans (if_congr hmem2.symm rfl rfl)

theorem consPre_length (c : Char) (ms : List MatchData) (fin : Str) :
    ((scanF.consPre c ms fin).1).length = ms.length := by
  cases ms <;> rfl

/-- Scan simulation for word-list patterns: the number of `finditer`
matches equals the number of listed word-character runs, where a leading
run that continues a word begun before `prev` is discarded. -/
theorem scanWordCount (words : List Str)
    (hW : ∀ a ∈ words, a ≠ [] ∧ ∀ ch ∈ a, isWordChar ch = true) :
    ∀ (fuel : Nat) (s : Str) (prev : Option Char), s.length < fuel →
      ((scanF (mWordList words) fuel prev s).1.length =
        if noWordBefore prev = true
        then (wordTokens s).countP (fun tok => decide (tok ∈ words))
        else (wordTokens (s.dropWhile (fun x => isWordChar x))).countP
          (fun tok => decide (tok ∈ words))) := by
  intro fuel
  induction fuel with
  | zero => intro s prev h; exact absurd h (by omega)
  | succ f ih =>
    intro s prev h
    cases s with
    | nil =>
      rw [show scanF (mWordList words) (f + 1) prev [] = ([], []) from rfl]
      simp [wordTokens, wordTokensAcc]
    | cons c cs =>
      have hlen : cs.length < f := by
        simp only [List.length_cons] at h
        omega
      by_cases hprev : noWordBefore prev = true
      · rw [if_pos hprev]
        by_cases hc : isWordChar c = true
        · have htw : (c :: cs).takeWhile (fun x => isWordChar x) =
              c :: cs.takeWhile (fun x => isWordChar x) := by
            rw [List.takeWhile_cons, if_pos hc]
          by_cases hmem :
              (c :: cs).takeWhile (fun x => isWordChar x) ∈ words
          · have hm : mWordList words prev (c :: cs) =
                some ⟨[((c :: cs).takeWhile (fun x => isWordChar x)).length],
                      ((c :: cs).takeWhile (fun x => isWordChar x)).length⟩ := by
              unfold mWordList
              rw [if_pos hprev, tryAlts_word (c :: cs) words hW, if_pos hmem]
            have hL0 : ((c :: cs).takeWhile (fun x => isWordChar x)).length ≠
                0 := by
              rw [htw]; simp
            obtain ⟨e, he⟩ :
                ∃ e, ((c :: cs).takeWhile
                  (fun x => isWordChar x)).getLast? = some e := by
              cases hl : ((c :: cs).takeWhile
                  (fun x => isWordChar x)).getLast? with
              | none =>
                rw [List.getLast?_eq_none_iff, htw] at hl
                exact absurd hl (by simp)
              | some e => exact ⟨e, rfl⟩
            have hew : isWordChar e = true :=
              List.mem_takeWhile_imp (List.mem_of_mem_getLast? he)
            have hdlen :
                ((c :: cs).dropWhile (fun x => isWordChar x)).length < f := by
              rw [← drop_takeWhile_len, List.length_drop]
              have h1 : 1 ≤ ((c :: cs).takeWhile
                  (fun x => isWordChar x)).length := by
                rw [htw]; simp
              simp only [List.length_cons] at h ⊢
              omega
            rw [scanF, hm]
            dsimp only
            rw [if_neg hL0]
            dsimp only
            simp only [List.length_cons]
            rw [take_takeWhile_len, drop_takeWhile_len, he]
            rw [ih ((c :: cs).dropWhile (fun x => isWordChar x)) (some e)
              hdlen]
            rw [if_neg (show ¬(noWordBefore (some e) = true) by
              simp [noWordBefore, hew])]
            rw [dropWhile_dropWhile]
            rw [List.dropWhile_cons, if_pos hc]
            rw [wordTokens_word c cs hc, List.countP_cons]
            have hmem2 : (c :: List.takeWhile (fun x => isWordChar x) cs) ∈
                words := by rw [← htw]; exact hmem
            simp [hmem2]
          · have hm : mWordList words prev (c :: cs) = none := by
              unfold mWordList
              rw [if_pos hprev, tryAlts_word (c :: cs) words hW, if_neg hmem]
            rw [scanF, hm]
            dsimp only
            rw [consPre_length]
            rw [ih cs (some c) hlen]
            rw [if_neg (show ¬(noWordBefore (some c) = true) by
              simp [noWordBefore, hc])]
            rw [wordTokens_word c cs hc, List.countP_cons]
            have hnm : ¬((c :: List.takeWhile (fun x => isWordChar x) cs) ∈
                words) := by rw [← htw]; exact hmem
            simp [hnm]
        · have htw0 : (c :: cs).takeWhile (fun x => isWordChar x) = [] := by
            rw [List.takeWhile_cons, if_neg hc]
          have hm : mWordList words prev (c :: cs) = none := by
            unfold mWordList
            rw [if_pos hprev, tryAlts_word (c :: cs) words hW,
              if_neg (by rw [htw0]; exact fun hcon => (hW [] hcon).1 rfl)]
          rw [scanF, hm]
          dsimp only
          rw [consPre_length]
          rw [ih cs (some c) hlen]
          rw [if_pos (show noWordBefore (some c) = true by
            simp [noWordBefore, hc])]
          rw [wordTokens_nonword c cs (by simpa using hc)]
      · rw [if_neg hprev]
        have hm : mWordList words prev (c :: cs) = none := by
          unfold mWordList
          rw [if_neg hprev]
        rw [scanF, hm]
        dsimp only
        rw [consPre_length]
        by_cases hc : isWordChar c = true
        · rw [ih cs (some c) hlen]
          rw [if_neg (show ¬(noWordBefore (some c) = true) by
            simp [noWordBefore, hc])]
          rw [List.dropWhile_cons, if_pos hc]
        · rw [ih cs (some c) hlen]
          rw [if_pos (show noWordBefore (some c) = true by
            simp [noWordBefore, hc])]
          rw [List.dropWhile_cons, if_neg hc]
          rw [wordTokens_nonword c cs (by simpa using hc)]

/-- The regex match count of `detect_language` coincides with the
spec-side whole-word count for well-formed word lists. -/
theorem countWordMatches_eq (words : List Str)
    (hW : ∀ a ∈ words, a ≠ [] ∧ ∀ ch ∈ a, isWordChar ch = true) (s : Str) :
    countWordMatches words s = specWordCount words s := by
  unfold countWordMatches findAll scan specWordCount
  rw [scanWordCount words hW (s.length + 1) s none (by omega)]
  rfl

/-- C7: for every non-empty input, the language classifier returns Spanish
iff the text contains a character of the Spanish-specific set, or
otherwise the fixed Spanish function-word lists have strictly more
case-insensitive whole-word matches (counted on the lowercased text) than
the English ones; on ties and in all remaining cases it returns English. -/
theorem C7_theorem (t : Str) (ht : t ≠ []) :
    (GoldStandardChunker.detect_language t = Language.spanish ↔
      ((∃ c ∈ t, isSpanishChar c = true) ∨
        specWordCount englishWords1 (lowerS t) +
            specWordCount englishWords2 (lowerS t) <
          specWordCount spanishWords1 (lowerS t) +
            specWordCount spanishWords2 (lowerS t))) := by
  have hsp1 : ∀ a ∈ spanishWords1, a ≠ [] ∧ ∀ ch ∈ a, isWordChar ch = true :=
    by decide
  have hsp2 : ∀ a ∈ spanishWords2, a ≠ [] ∧ ∀ ch ∈ a, isWordChar ch = true :=
    by decide
  have hen1 : ∀ a ∈ englishWords1, a ≠ [] ∧ ∀ ch ∈ a, isWordChar ch = true :=
    by decide
  have hen2 : ∀ a ∈ englishWords2, a ≠ [] ∧ ∀ ch ∈ a, isWordChar ch = true :=
    by decide
  by_cases hany : t.any (fun c => isSpanishChar c) = true
  · have hex : ∃ c ∈ t, isSpanishChar c = true := by
      simpa [List.any_eq_true] using hany
    simp only [GoldStandardChunker.detect_language]
    rw [if_pos hany]
    simp [hex]
  · have hnex : ¬∃ c ∈ t, isSpanishChar c = true := by
      simpa [List.any_eq_true] using hany
    simp only [GoldStandardChunker.detect_language]
    rw [if_neg hany]
    rw [countWordMatches_eq spanishWords1 hsp1 (lowerS t),
        countWordMatches_eq englishWords1 hen1 (lowerS t),
        countWordMatches_eq spanishWords2 hsp2 (lowerS t),
        countWordMatches_eq englishWords2 hen2 (lowerS t)]
    by_cases hgt : specWordCount englishWords1 (lowerS t) +
          specWordCount englishWords2 (lowerS t) <
        specWordCount spanishWords1 (lowerS t) +
          specWordCount spanishWords2 (lowerS t)
    · rw [if_pos hgt]
      simp [hgt]
    · rw [if_neg hgt]
      simp [hgt, hnex]

/-- Concrete instantiation of the C7 language-detection theorem. -/
theorem C7_theorem_witness :
    (GoldStandardChunker.detect_language ("que y tal".toList) =
        Language.spanish ↔
      ((∃ c ∈ "que y tal".toList, isSpanishChar c = true) ∨
        specWordCount englishWords1 (lowerS ("que y tal".toList)) +
            specWordCount englishWords2 (lowerS ("que y tal".toList)) <
          specWordCount spanishWords1 (lowerS ("que y tal".toList)) +
            specWordCount spanishWords2 (lowerS ("que y tal".toList)))) :=
  C7_theorem _ (by decide)

/-! ## Claim C10: TTS chunks end in sentence punctuation -/

theorem ensure_ends_punct (x : Str)
    (h : TTSOptimizedChunker.ensure_tts_termination x ≠ []) :
    ∃ c, (TTSOptimizedChunker.ensure_tts_termination x).getLast? = some c ∧
      isPunctSE c = true := by
  simp only [TTSOptimizedChunker.ensure_tts_termination] at h ⊢
  by_cases he : (pyStrip x).isEmpty = true
  · rw [if_pos he] at h
    exact absurd (List.isEmpty_iff.mp he) h
  · rw [if_neg he] at h ⊢
    cases hl : (pyStrip x).getLast? with
    | none =>
      have hnil : pyStrip x = [] := List.getLast?_eq_none_iff.mp hl
      exact absurd (by rw [hnil]; rfl) he
    | some c =>
      dsimp only at h ⊢
      by_cases hp : isPunctSE c = true
      · rw [if_pos hp]
        exact ⟨c, hl, hp⟩
      · rw [if_neg hp]
        refine ⟨'.', ?_, by decide⟩
        rw [List.getLast?_concat]

theorem mem_append_ensure (cur : Str) (chunks : List Str) (x : Str)
    (hx : x ∈ (if cur.isEmpty then chunks
      else chunks ++ [TTSOptimizedChunker.ensure_tts_termination cur])) :
    x ∈ chunks ∨ ∃ y, x = TTSOptimizedChunker.ensure_tts_termination y := by
  by_cases hc : cur.isEmpty = true
  · rw [if_pos hc] at hx
    exact Or.inl hx
  · rw [if_neg hc] at hx
    rcases List.mem_append.mp hx with h | h
    · exact Or.inl h
    · exact Or.inr ⟨cur, by simpa using h⟩

theorem ttsParaLoop_mem (cfg : TTSOptimizedChunker.Config) :
    ∀ (ss : List Str) (cur : Str) (chunks : List Str) (x : Str),
      x ∈ TTSOptimizedChunker.ttsParaLoop cfg ss cur chunks →
      x ∈ chunks ∨ ∃ y, x = TTSOptimizedChunker.ensure_tts_termination y := by
  intro ss
  induction ss with
  | nil =>
    intro cur chunks x hx
    unfold TTSOptimizedChunker.ttsParaLoop at hx
    exact mem_append_ensure cur chunks x hx
  | cons s rest ih =>
    intro cur chunks x hx
    unfold TTSOptimizedChunker.ttsParaLoop at hx
    dsimp only at hx
    by_cases hlen : s.length > cfg.max_size
    · rw [if_pos hlen] at hx
      rcases ih _ _ x hx with h | h
      · rcases List.mem_append.mp h with h1 | h1
        · exact mem_append_ensure cur chunks x h1
        · rcases List.mem_map.mp h1 with ⟨y, _, hy⟩
          exact Or.inr ⟨y, hy.symm⟩
      · exact Or.inr h
    · rw [if_neg hlen] at hx
      by_cases hce : cur.isEmpty = true
      · simp only [if_pos hce] at hx
        rw [ite_self, ite_self] at hx
        exact ih s chunks x hx
      · simp only [if_neg hce] at hx
        by_cases ht : (cur ++ [' '] ++ s).length ≤ cfg.target_size
        · rw [if_pos ht] at hx
          exact ih _ chunks x hx
        · rw [if_neg ht] at hx
          split at hx
          · exact ih _ chunks x hx
          · rcases ih _ _ x hx with h | h
            · rcases List.mem_append.mp h with h1 | h1
              · exact Or.inl h1
              · exact Or.inr ⟨cur, by simpa using h1⟩
            · exact Or.inr h

theorem chunk_paragraph_for_tts_mem (cfg : TTSOptimizedChunker.Config)
    (p x : Str) (hx : x ∈ TTSOptimizedChunker.chunk_paragraph_for_tts cfg p) :
    ∃ y, x = TTSOptimizedChunker.ensure_tts_termination y := by
  unfold TTSOptimizedChunker.chunk_paragraph_for_tts at hx
  by_cases hp : p.length ≤ cfg.max_size
  · rw [if_pos hp] at hx
    exact ⟨p, by simpa using hx⟩
  · rw [if_neg hp] at hx
    rcases ttsParaLoop_mem cfg _ _ _ x hx with h | h
    · exact absurd h (by simp)
    · exact h

theorem ttsFold_mem (cfg : TTSOptimizedChunker.Config) :
    ∀ (ps : List Str) (init : List Str) (x : Str),
      x ∈ ps.foldl (fun chunks p =>
        if (pyStrip p).isEmpty then chunks
        else chunks ++ TTSOptimizedChunker.chunk_paragraph_for_tts cfg
          (pyStrip p)) init →
      x ∈ init ∨ ∃ y, x = TTSOptimizedChunker.ensure_tts_termination y := by
  intro ps
  induction ps with
  | nil => intro init x hx; exact Or.inl hx
  | cons p rest ih =>
    intro init x hx
    rw [List.foldl_cons] at hx
    rcases ih _ x hx with h | h
    · by_cases hp : (pyStrip p).isEmpty = true
      · rw [if_pos hp] at h
        exact Or.inl h
      · rw [if_neg hp] at h
        rcases List.mem_append.mp h with h1 | h1
        · exact Or.inl h1
        · exact Or.inr (chunk_paragraph_for_tts_mem cfg _ x h1)
    · exact Or.inr h

/-- C10: with any positive min_size (the class default is 120), every
chunk returned by `tts_chunk_text` ends with one of the characters `'.'`,
`'!'`, `'?'`: every assembled chunk passes `_ensure_tts_termination`,
which appends a terminal period when sentence punctuation is missing, and
the final minimum-size filter discards empty chunks. -/
theorem C10_theorem (cfg : TTSOptimizedChunker.Config)
    (hmin : 1 ≤ cfg.min_size) (text : Str) :
    ∀ chunk ∈ TTSOptimizedChunker.tts_chunk_text cfg text,
      ∃ c, chunk.getLast? = some c ∧ (c = '.' ∨ c = '!' ∨ c = '?') := by
  intro chunk hc
  unfold TTSOptimizedChunker.tts_chunk_text at hc
  dsimp only at hc
  rw [List.mem_filter] at hc
  obtain ⟨hmem, hpred⟩ := hc
  have hne : chunk ≠ [] := by
    intro hcon
    rw [hcon, show pyStrip ([] : Str) = [] from rfl] at hpred
    simp at hpred
    omega
  rcases ttsFold_mem cfg _ [] chunk hmem with h | h
  · exact absurd h (by simp)
  · obtain ⟨y, hy⟩ := h
    obtain ⟨c, hcl, hcp⟩ := ensure_ends_punct y (hy ▸ hne)
    rw [hy]
    refine ⟨c, hcl, ?_⟩
    revert hcp
    simp [isPunctSE, or_assoc]

/-- Concrete instantiation of the C10 termination-punctuation theorem at
the default configuration, on an input long enough to survive the
min_size filter (the output is one chunk, with a period appended to the
terminator-free source text). -/
theorem C10_theorem_witness :
    1 ≤ TTSOptimizedChunker.defaultConfig.min_size ∧
      TTSOptimizedChunker.tts_chunk_text TTSOptimizedChunker.defaultConfig
        ("The sun was warm on the hills and the wind moved slowly through the tall grass while the river ran clear over the smooth stones and carried small leaves toward the quiet valley below the old bridge".toList) ≠ [] ∧
      (∀ chunk ∈ TTSOptimizedChunker.tts_chunk_text
          TTSOptimizedChunker.defaultConfig ("The sun was warm on the hills and the wind moved slowly through the tall grass while the river ran clear over the smooth stones and carried small leaves toward the quiet valley below the old bridge".toList),
        ∃ c, chunk.getLast? = some c ∧ (c = '.' ∨ c = '!' ∨ c = '?')) :=
  ⟨by decide, by decide,
   C10_theorem TTSOptimizedChunker.defaultConfig (by decide) _⟩

/-! ## Claim C2: edge-input behavior and chunk non-emptiness -/

theorem pyRstrip_eq_take (u : Str) :
    pyRstrip u =
      u.take (u.length - (u.reverse.takeWhile (isSpace ·)).length) := by
  unfold pyRstrip
  rw [← drop_takeWhile_len (isSpace ·) u.reverse]
  rw [List.reverse_drop, List.reverse_reverse, List.length_reverse]

theorem dropWhile_head_fix (p : Char → Bool) (u : Str)
    (hu : u.dropWhile p = u) (k : Nat) :
    (u.take k).dropWhile p = u.take k := by
  cases u with
  | nil => simp
  | cons c cs =>
    have hc : p c = false := by
      by_cases hpc : p c = true
      · exfalso
        rw [List.dropWhile_cons, if_pos hpc] at hu
        have h2 : (cs.dropWhile p).length ≤ cs.length := by
          rw [← drop_takeWhile_len, List.length_drop]
          omega
        rw [hu] at h2
        simp only [List.length_cons] at h2
        omega
      · simpa using hpc
    cases k with
    | zero => simp
    | succ k0 =>
      rw [List.take_succ_cons, List.dropWhile_cons, if_neg (by simp [hc])]

theorem pyLstrip_pyStrip (s : Str) : pyLstrip (pyStrip s) = pyStrip s := by
  unfold pyStrip
  rw [pyRstrip_eq_take (pyLstrip s)]
  unfold pyLstrip
  exact dropWhile_head_fix _ _ (dropWhile_dropWhile _ s) _

theorem pyRstrip_pyRstrip (u : Str) : pyRstrip (pyRstrip u) = pyRstrip u := by
  unfold pyRstrip
  rw [List.reverse_reverse, dropWhile_dropWhile]

theorem pyStrip_idem (s : Str) : pyStrip (pyStrip s) = pyStrip s := by
  calc pyStrip (pyStrip s) = pyRstrip (pyLstrip (pyStrip s)) := rfl
    _ = pyRstrip (pyStrip s) := by rw [pyLstrip_pyStrip]
    _ = pyRstrip (pyRstrip (pyLstrip s)) := rfl
    _ = pyRstrip (pyLstrip s) := pyRstrip_pyRstrip _
    _ = pyStrip s := rfl

theorem pyStrip_exists_nonspace (s : Str) (h : pyStrip s ≠ []) :
    ∃ c ∈ pyStrip s, isSpace c = false := by
  cases hs : pyStrip s with
  | nil => exact absurd hs h
  | cons c t =>
    refine ⟨c, by simp, ?_⟩
    have h1 : pyLstrip (pyStrip s) = pyStrip s := pyLstrip_pyStrip s
    rw [hs] at h1
    by_cases hc : isSpace c = true
    · exfalso
      unfold pyLstrip at h1
      rw [List.dropWhile_cons, if_pos hc] at h1
      have h2 : (t.dropWhile (isSpace ·)).length ≤ t.length := by
        rw [← drop_takeWhile_len, List.length_drop]
        omega
      rw [h1] at h2
      simp only [List.length_cons] at h2
      omega
    · simpa using hc

theorem dropWhile_all (p : Char → Bool) :
    ∀ t : Str, (∀ c ∈ t, p c = true) → t.dropWhile p = [] := by
  intro t
  induction t with
  | nil => intro _; rfl
  | cons c cs ih =>
    intro h
    rw [List.dropWhile_cons, if_pos (h c (by simp))]
    exact ih (fun x hx => h x (by simp [hx]))

theorem pyStrip_ws (t : Str) (h : ∀ c ∈ t, isSpace c = true) :
    pyStrip t = [] := by
  unfold pyStrip pyLstrip
  rw [dropWhile_all _ t h]
  rfl

theorem pySplitWsAux_ws :
    ∀ t : Str, (∀ c ∈ t, isSpace c = true) → pySplitWsAux [] t = [] := by
  intro t
  induction t with
  | nil => intro _; rfl
  | cons c cs ih =>
    intro h
    unfold pySplitWsAux
    rw [if_pos (h c (by simp))]
    show pySplitWsAux [] cs = []
    exact ih (fun x hx => h x (by simp [hx]))

theorem mem_if_append (g : Bool) (chunks newl : List Str) (x : Str)
    (hnew : g = true → ∀ z ∈ newl, pyStrip z = z ∧ z ≠ [])
    (hx : x ∈ (if g then chunks ++ newl else chunks)) :
    x ∈ chunks ∨ (pyStrip x = x ∧ x ≠ []) := by
  by_cases hg : g = true
  · rw [if_pos hg] at hx
    rcases List.mem_append.mp hx with h | h
    · exact Or.inl h
    · exact Or.inr (hnew hg x h)
  · rw [if_neg hg] at hx
    exact Or.inl hx

theorem mem_if_append2 (y : Str) (chunks : List Str) (x : Str)
    (hx : x ∈ (if (pyStrip y).isEmpty then chunks
      else chunks ++ [pyStrip y])) :
    x ∈ chunks ∨ (pyStrip x = x ∧ x ≠ []) := by
  by_cases hg : (pyStrip y).isEmpty = true
  · rw [if_pos hg] at hx
    exact Or.inl hx
  · rw [if_neg hg] at hx
    rcases List.mem_append.mp hx with h | h
    · exact Or.inl h
    · simp only [List.mem_singleton] at h
      subst h
      exact Or.inr ⟨pyStrip_idem y, by simpa [List.isEmpty_iff] using hg⟩

theorem currentClean (current : Str)
    (hinv : current = [] ∨ ∃ c ∈ current, isSpace c = false) :
    (!current.isEmpty) = true → ∀ z ∈ [pyStrip current],
      pyStrip z = z ∧ z ≠ [] := by
  intro hg z hz
  simp only [List.mem_singleton] at hz
  subst hz
  rcases hinv with hc0 | ⟨c, hcm, hcs⟩
  · exact absurd hg (by simp [hc0])
  · exact ⟨pyStrip_idem current, pyStrip_ne_nil current c hcm hcs⟩

theorem currentCleanStrip (current : Str) :
    stripNonEmpty current = true → ∀ z ∈ [pyStrip current],
      pyStrip z = z ∧ z ≠ [] := by
  intro hg z hz
  simp only [List.mem_singleton] at hz
  subst hz
  refine ⟨pyStrip_idem current, ?_⟩
  intro hcon
  rw [stripNonEmpty, hcon] at hg
  simp at hg

theorem chunkLongLoopF_mem (cfg : GoldStandardChunker.Config) :
    ∀ (fuel : Nat) (remaining : Str) (chunks l : List Str),
      pyStrip remaining = remaining →
      GoldStandardChunker.chunkLongLoopF cfg fuel remaining chunks = some l →
      ∀ x ∈ l, x ∈ chunks ∨ (pyStrip x = x ∧ x ≠ []) := by
  intro fuel
  induction fuel with
  | zero => intro r c l _ heq; exact Option.noConfusion heq
  | succ f ih =>
    intro remaining chunks l hrem heq x hx
    unfold GoldStandardChunker.chunkLongLoopF at heq
    dsimp only at heq
    split at heq
    · rcases ih _ _ l (pyStrip_idem _) heq x hx with hin | hp
      · exact mem_if_append2 _ chunks x hin
      · exact Or.inr hp
    · have hl := Option.some.inj heq
      subst hl
      by_cases hre : remaining.isEmpty = true
      · rw [if_pos hre] at hx
        exact Or.inl hx
      · rw [if_neg hre] at hx
        rcases List.mem_append.mp hx with h1 | h1
        · exact Or.inl h1
        · simp only [List.mem_singleton] at h1
          subst h1
          exact Or.inr ⟨hrem, by simpa [List.isEmpty_iff] using hre⟩

theorem chunk_long_sentence_clean (cfg : GoldStandardChunker.Config)
    (s : Str) (l : List Str) (hs : pyStrip s = s) (hne : s ≠ [])
    (h : GoldStandardChunker.chunk_long_sentence cfg s = some l) :
    ∀ x ∈ l, pyStrip x = x ∧ x ≠ [] := by
  intro x hx
  unfold GoldStandardChunker.chunk_long_sentence at h
  cases hcs : GoldStandardChunker.chunkLongCommaSplit cfg s with
  | some r =>
    rw [hcs] at h
    dsimp only at h
    have hl := Option.some.inj h
    subst hl
    unfold GoldStandardChunker.chunkLongCommaSplit at hcs
    dsimp only at hcs
    split at hcs
    · split at hcs
      · exact Option.noConfusion hcs
      · split at hcs
        · rename_i hguard
          have hr := Option.some.inj hcs
          subst hr
          simp only [Bool.and_eq_true, Bool.not_eq_true'] at hguard
          simp only [List.mem_cons, List.not_mem_nil, or_false] at hx
          rcases hx with rfl | rfl
          · refine ⟨pyStrip_idem _, fun hcon => ?_⟩
            rw [hcon] at hguard
            simp at hguard
          · refine ⟨pyStrip_idem _, fun hcon => ?_⟩
            rw [hcon] at hguard
            simp at hguard
        · exact Option.noConfusion hcs
    · exact Option.noConfusion hcs
  | none =>
    rw [hcs] at h
    dsimp only at h
    split at h
    · have hl := Option.some.inj h
      subst hl
      simp only [List.mem_singleton] at hx
      subst hx
      exact ⟨hs, hne⟩
    · rcases chunkLongLoopF_mem cfg _ _ _ l hs h x hx with hin | hp
      · exact absurd hin (by simp)
      · exact hp

theorem goldGeneric_fst (cfg : GoldStandardChunker.Config)
    (current s : Str) (chunks : List Str) (hs : ∃ c ∈ s, isSpace c = false) :
    ∃ c ∈ (GoldStandardChunker.goldGeneric cfg current s chunks).1,
      isSpace c = false := by
  obtain ⟨c, hcm, hcs⟩ := hs
  unfold GoldStandardChunker.goldGeneric
  dsimp only
  by_cases hce : current.isEmpty = true
  · simp only [if_pos hce]
    split
    · exact ⟨c, hcm, hcs⟩
    · exact ⟨c, hcm, hcs⟩
  · simp only [if_neg hce]
    split
    · exact ⟨c, by simp [hcm], hcs⟩
    · exact ⟨c, hcm, hcs⟩

theorem goldGeneric_snd (cfg : GoldStandardChunker.Config)
    (current s : Str) (chunks : List Str)
    (hinv : current = [] ∨ ∃ c ∈ current, isSpace c = false) (x : Str)
    (hx : x ∈ (GoldStandardChunker.goldGeneric cfg current s chunks).2) :
    x ∈ chunks ∨ (pyStrip x = x ∧ x ≠ []) := by
  unfold GoldStandardChunker.goldGeneric at hx
  dsimp only at hx
  by_cases hce : current.isEmpty = true
  · simp only [if_pos hce] at hx
    split at hx
    · exact Or.inl hx
    · rename_i hcond
      exact absurd (by simp [hce]) hcond
  · simp only [if_neg hce] at hx
    split at hx
    · exact Or.inl hx
    · have hx' : x ∈ chunks ++ [pyStrip current] := hx
      rcases List.mem_append.mp hx' with h | h
      · exact Or.inl h
      · rcases hinv with hc0 | ⟨c, hcm, hcs⟩
        · exact absurd (by rw [hc0]; rfl) hce
        · simp only [List.mem_singleton] at h
          subst h
          exact Or.inr ⟨pyStrip_idem current, pyStrip_ne_nil current c hcm hcs⟩

theorem goldAssemble_mem (cfg : GoldStandardChunker.Config) :
    ∀ (ss : List Str) (current : Str) (chunks l : List Str),
      (current = [] ∨ ∃ c ∈ current, isSpace c = false) →
      GoldStandardChunker.goldAssemble cfg ss current chunks = some l →
      ∀ x ∈ l, x ∈ chunks ∨ (pyStrip x = x ∧ x ≠ []) := by
  intro ss
  induction ss with
  | nil =>
    intro current chunks l hinv heq x hx
    unfold GoldStandardChunker.goldAssemble at heq
    have hl := Option.some.inj heq
    subst hl
    exact mem_if_append _ chunks _ x (currentCleanStrip current) hx
  | cons s0 rest ih =>
    intro current chunks l hinv heq x hx
    unfold GoldStandardChunker.goldAssemble at heq
    dsimp only at heq
    by_cases h1 : (pyStrip s0).isEmpty = true
    · rw [if_pos h1] at heq
      exact ih _ _ l hinv heq x hx
    · rw [if_neg h1] at heq
      have hsne : pyStrip s0 ≠ [] := by simpa [List.isEmpty_iff] using h1
      have hs_strip : pyStrip (pyStrip s0) = pyStrip s0 := pyStrip_idem s0
      have hsnsp : ∃ c ∈ pyStrip s0, isSpace c = false :=
        pyStrip_exists_nonspace s0 hsne
      by_cases h2 : (pyStrip s0).length > cfg.max_size
      · rw [if_pos h2] at heq
        cases hcl : GoldStandardChunker.chunk_long_sentence cfg (pyStrip s0)
          with
        | none => rw [hcl] at heq; exact Option.noConfusion heq
        | some lc =>
          rw [hcl] at heq
          dsimp only at heq
          have hlc := chunk_long_sentence_clean cfg _ lc hs_strip hsne hcl
          rcases ih [] _ l (Or.inl rfl) heq x hx with hin | hp
          · rcases List.mem_append.mp hin with hin1 | hin1
            · exact mem_if_append _ chunks _ x (currentClean current hinv) hin1
            · exact Or.inr (hlc x hin1)
          · exact Or.inr hp
      · rw [if_neg h2] at heq
        have hpot : ∃ c ∈ (if current.isEmpty then pyStrip s0
            else current ++ [' '] ++ pyStrip s0), isSpace c = false := by
          obtain ⟨c, hcm, hcs⟩ := hsnsp
          by_cases hce : current.isEmpty = true
          · rw [if_pos hce]; exact ⟨c, hcm, hcs⟩
          · rw [if_neg hce]; exact ⟨c, by simp [hcm], hcs⟩
        by_cases h3 : cfg.prefer_sentence_boundaries = true
        · rw [if_pos h3] at heq
          by_cases h4 : (decide ((pyStrip s0).length ≤ cfg.min_chunk_size) &&
              decide ((if current.isEmpty then pyStrip s0
                else current ++ [' '] ++ pyStrip s0).length ≤
                  cfg.target_size)) = true
          · rw [if_pos h4] at heq
            exact ih _ chunks l (Or.inr hpot) heq x hx
          · rw [if_neg h4] at heq
            by_cases h5 : (decide ((pyStrip s0).length < cfg.target_size) &&
                decide ((pyStrip s0).length > cfg.min_chunk_size)) = true
            · rw [if_pos h5] at heq
              rcases ih [] _ l (Or.inl rfl) heq x hx with hin | hp
              · rcases List.mem_append.mp hin with hin1 | hin1
                · exact mem_if_append _ chunks _ x (currentClean current hinv)
                    hin1
                · simp only [List.mem_singleton] at hin1
                  subst hin1
                  exact Or.inr ⟨hs_strip, hsne⟩
              · exact Or.inr hp
            · rw [if_neg h5] at heq
              by_cases h6 : (pyStrip s0).length ≥ cfg.target_size
              · rw [if_pos h6] at heq
                cases hcl : GoldStandardChunker.chunk_long_sentence cfg
                    (pyStrip s0) with
                | none => rw [hcl] at heq; exact Option.noConfusion heq
                | some sc =>
                  rw [hcl] at heq
                  dsimp only at heq
                  have hlc := chunk_long_sentence_clean cfg _ sc hs_strip hsne
                    hcl
                  rcases ih [] _ l (Or.inl rfl) heq x hx with hin | hp
                  · rcases List.mem_append.mp hin with hin1 | hin1
                    · exact mem_if_append _ chunks _ x
                        (currentClean current hinv) hin1
                    · exact Or.inr (hlc x hin1)
                  · exact Or.inr hp
              · rw [if_neg h6] at heq
                rcases ih _ _ l
                    (Or.inr (goldGeneric_fst cfg current (pyStrip s0) chunks
                      hsnsp)) heq x hx with hin | hp
                · exact goldGeneric_snd cfg current (pyStrip s0) chunks hinv x
                    hin
                · exact Or.inr hp
        · rw [if_neg h3] at heq
          rcases ih _ _ l
              (Or.inr (goldGeneric_fst cfg current (pyStrip s0) chunks hsnsp))
              heq x hx with hin | hp
          · exact goldGeneric_snd cfg current (pyStrip s0) chunks hinv x hin
          · exact Or.inr hp

theorem gold_edge_ws (cfg : GoldStandardChunker.Config) (text : Str)
    (h : ∀ c ∈ text, isSpace c = true) :
    GoldStandardChunker.gold_standard_chunk_text cfg text = some [] := by
  unfold GoldStandardChunker.gold_standard_chunk_text
  rw [if_pos (show (pyStrip text).isEmpty = true by rw [pyStrip_ws text h]; rfl)]

theorem smart_edge_ws (cfg : SmartChunker.Config) (text : Str)
    (h : ∀ c ∈ text, isSpace c = true) :
    SmartChunker.smart_chunk_text cfg text = some [] := by
  have h1 : pySplitWs text = [] := pySplitWsAux_ws text h
  unfold SmartChunker.smart_chunk_text SmartChunker.chunksBeforeFilter
    SmartChunker.normalize_text normalizeWs
  rw [h1]
  rfl

theorem gold_nonws_result (cfg : GoldStandardChunker.Config) (text : Str)
    (l : List Str) (hne : pyStrip text ≠ [])
    (heq : GoldStandardChunker.gold_standard_chunk_text cfg text = some l) :
    l ≠ [] ∧ ∀ x ∈ l, pyStrip x ≠ [] := by
  unfold GoldStandardChunker.gold_standard_chunk_text at heq
  rw [if_neg (show ¬((pyStrip text).isEmpty = true) by
    simpa [List.isEmpty_iff] using hne)] at heq
  dsimp only at heq
  by_cases hse : (GoldStandardChunker.split_into_sentences
      (GoldStandardChunker.detect_language text) text).isEmpty = true
  · rw [if_pos hse] at heq
    have hl := Option.some.inj heq
    subst hl
    refine ⟨by simp, ?_⟩
    intro x hx
    simp only [List.mem_singleton] at hx
    subst hx
    rw [pyStrip_idem]
    exact hne
  · rw [if_neg hse] at heq
    cases hga : GoldStandardChunker.goldAssemble cfg
        (GoldStandardChunker.split_into_sentences
          (GoldStandardChunker.detect_language text) text) [] [] with
    | none => rw [hga] at heq; exact Option.noConfusion heq
    | some chunks =>
      rw [hga] at heq
      dsimp only at heq
      have hl := Option.some.inj heq
      have hcl : ∀ x ∈ chunks, pyStrip x = x ∧ x ≠ [] := by
        intro x hx
        rcases goldAssemble_mem cfg _ [] [] chunks (Or.inl rfl) hga x hx with
          h | h
        · exact absurd h (by simp)
        · exact h
      have hsne : stripNonEmpty text = true := by
        unfold stripNonEmpty
        cases hie : (pyStrip text).isEmpty
        · rfl
        · exact absurd (List.isEmpty_iff.mp hie) hne
      by_cases hce : chunks.isEmpty = true
      · have hcond : (chunks.isEmpty && stripNonEmpty text) = true := by
          rw [hce, hsne]
          rfl
        rw [if_pos hcond] at hl
        subst hl
        refine ⟨by simp, ?_⟩
        intro x hx
        simp only [List.mem_singleton] at hx
        subst hx
        rw [pyStrip_idem]
        exact hne
      · have hcond : ¬((chunks.isEmpty && stripNonEmpty text) = true) := by
          intro hc
          exact hce ((Bool.and_eq_true _ _).mp hc).1
        rw [if_neg hcond] at hl
        subst hl
        constructor
        · intro hcon
          rw [hcon] at hce
          exact hce rfl
        · intro x hx
          rw [(hcl x hx).1]
          exact (hcl x hx).2

theorem smart_min_filter (cfg : SmartChunker.Config) (text : Str)
    (l : List Str) (heq : SmartChunker.smart_chunk_text cfg text = some l) :
    ∀ x ∈ l, cfg.min_size ≤ (pyStrip x).length := by
  intro x hx
  unfold SmartChunker.smart_chunk_text at heq
  cases hcb : SmartChunker.chunksBeforeFilter cfg text with
  | none => rw [hcb] at heq; exact Option.noConfusion heq
  | some l0 =>
    rw [hcb] at heq
    have hl := Option.some.inj heq
    subst hl
    have hfm := List.mem_filter.mp hx
    simpa using hfm.2

/-- C2 counterexample: on the non-whitespace input "Hi." the smart
chunker returns zero chunks (the final min_size filter drops the only
chunk), refuting "never emits zero chunks for non-empty input". -/
theorem C2_counterexample :
    SmartChunker.smart_chunk_text SmartChunker.defaultConfig
        ("Hi.".toList) = some [] ∧
      pyStrip ("Hi.".toList) ≠ [] := by
  constructor
  · rfl
  · decide

/-- C2: both engines return the empty list on whitespace-only input; the
gold-standard engine, whenever it returns, returns a non-empty list whose
chunks all have non-empty strip for non-whitespace input; the smart
engine guarantees only that every returned chunk has strip length at
least min_size (it can return zero chunks for non-empty input, see the
counterexample). -/
theorem C2_theorem :
    (∀ (cfg : GoldStandardChunker.Config) (text : Str),
      (∀ c ∈ text, isSpace c = true) →
      GoldStandardChunker.gold_standard_chunk_text cfg text = some []) ∧
    (∀ (cfg : SmartChunker.Config) (text : Str),
      (∀ c ∈ text, isSpace c = true) →
      SmartChunker.smart_chunk_text cfg text = some []) ∧
    (∀ (cfg : GoldStandardChunker.Config) (text : Str) (l : List Str),
      pyStrip text ≠ [] →
      GoldStandardChunker.gold_standard_chunk_text cfg text = some l →
      l ≠ [] ∧ ∀ x ∈ l, pyStrip x ≠ []) ∧
    (∀ (cfg : SmartChunker.Config) (text : Str) (l : List Str),
      SmartChunker.smart_chunk_text cfg text = some l →
      ∀ x ∈ l, cfg.min_size ≤ (pyStrip x).length) :=
  ⟨gold_edge_ws, smart_edge_ws, gold_nonws_result, smart_min_filter⟩

/-- Concrete instantiation of the C2 edge-input theorem. -/
theorem C2_theorem_witness :
    GoldStandardChunker.gold_standard_chunk_text
        GoldStandardChunker.defaultConfig (" \t ".toList) = some [] ∧
    SmartChunker.smart_chunk_text SmartChunker.defaultConfig
        ("  ".toList) = some [] ∧
    (["Hello there.".toList] ≠ [] ∧
      ∀ x ∈ ["Hello there.".toList], pyStrip x ≠ []) ∧
    (∀ x ∈ [("The quick brown fox jumps over the lazy dog while the calm white cat sleeps near the warm stone wall of the old garden house at noon.").toList],
      SmartChunker.defaultConfig.min_size ≤ (pyStrip x).length) :=
  ⟨C2_theorem.1 _ _ (by decide),
   C2_theorem.2.1 _ _ (by decide),
   C2_theorem.2.2.1 GoldStandardChunker.defaultConfig
     ("Hello there.".toList) _ (by decide) rfl,
   C2_theorem.2.2.2 SmartChunker.defaultConfig ("The quick brown fox jumps over the lazy dog while the calm white cat sleeps near the warm stone wall of the old garden house at noon.").toList _ rfl⟩

/-! ## Claim C1: chunk concatenation reconstructs the input -/

theorem subPunctCap_id : ∀ s : Str, (∀ c ∈ s, isUpperAZ c = false) →
    subPunctCap s = s := by
  intro s
  induction s with
  | nil => intro _; rfl
  | cons a t ih =>
    intro h
    cases t with
    | nil => rfl
    | cons b rest =>
      unfold subPunctCap
      rw [if_neg (by simp [h b (by simp)])]
      rw [ih (fun c hc => h c (by simp [hc]))]

theorem mParaBreak_none (prev : Option Char) (t : Str)
    (h : ∀ c ∈ t, ¬(c = '\n')) : mParaBreak prev t = none := by
  cases t with
  | nil => rfl
  | cons c cs =>
    unfold mParaBreak
    split
    · rename_i rest heq
      cases heq
      exact absurd rfl (h '\n' (by simp))
    · rfl

theorem revWord (cur : Str) (hcur : ∀ c ∈ cur, isSpace c = false)
    (hce : ¬(cur.isEmpty = true)) :
    cur.reverse ≠ [] ∧ ∀ c ∈ cur.reverse, isSpace c = false ∧ c ∈ cur := by
  constructor
  · intro hcon
    exact hce (by simp [List.reverse_eq_nil_iff.mp hcon])
  · intro c hc
    have hc' : c ∈ cur := List.mem_reverse.mp hc
    exact ⟨hcur c hc', hc'⟩

theorem pySplitWsAux_words :
    ∀ (s cur : Str), (∀ c ∈ cur, isSpace c = false) →
      ∀ w ∈ pySplitWsAux cur s, w ≠ [] ∧
        ∀ c ∈ w, isSpace c = false ∧ (c ∈ cur ∨ c ∈ s) := by
  intro s
  induction s with
  | nil =>
    intro cur hcur w hw
    unfold pySplitWsAux at hw
    by_cases hce : cur.isEmpty = true
    · rw [if_pos hce] at hw
      simp at hw
    · rw [if_neg hce] at hw
      simp only [List.mem_singleton] at hw
      subst hw
      obtain ⟨hne, hall⟩ := revWord cur hcur hce
      exact ⟨hne, fun c hc => ⟨(hall c hc).1, Or.inl (hall c hc).2⟩⟩
  | cons c0 cs ih =>
    intro cur hcur w hw
    unfold pySplitWsAux at hw
    by_cases hsp : isSpace c0 = true
    · rw [if_pos hsp] at hw
      by_cases hce : cur.isEmpty = true
      · rw [if_pos hce] at hw
        obtain ⟨hne, hall⟩ := ih [] (by simp) w hw
        refine ⟨hne, fun c hc => ⟨(hall c hc).1, ?_⟩⟩
        rcases (hall c hc).2 with h | h
        · simp at h
        · exact Or.inr (by simp [h])
      · rw [if_neg hce] at hw
        rcases List.mem_cons.mp hw with rfl | hw'
        · obtain ⟨hne, hall⟩ := revWord cur hcur hce
          exact ⟨hne, fun c hc => ⟨(hall c hc).1, Or.inl (hall c hc).2⟩⟩
        · obtain ⟨hne, hall⟩ := ih [] (by simp) w hw'
          refine ⟨hne, fun c hc => ⟨(hall c hc).1, ?_⟩⟩
          rcases (hall c hc).2 with h | h
          · simp at h
          · exact Or.inr (by simp [h])
    · rw [if_neg hsp] at hw
      obtain ⟨hne, hall⟩ := ih (c0 :: cur) (by
        intro c hc
        rcases List.mem_cons.mp hc with rfl | hc'
        · simpa using hsp
        · exact hcur c hc') w hw
      refine ⟨hne, fun c hc => ⟨(hall c hc).1, ?_⟩⟩
      rcases (hall c hc).2 with h | h
      · rcases List.mem_cons.mp h with rfl | h'
        · exact Or.inr (by simp)
        · exact Or.inl h'
      · exact Or.inr (by simp [h])

theorem joinSep_chars (sep : Str) :
    ∀ ws : List Str, ∀ c ∈ joinSep sep ws, c ∈ sep ∨ ∃ w ∈ ws, c ∈ w := by
  intro ws
  induction ws with
  | nil => intro c hc; simp [joinSep] at hc
  | cons w rest ih =>
    intro c hc
    cases rest with
    | nil => exact Or.inr ⟨w, by simp, by simpa [joinSep] using hc⟩
    | cons w2 rest2 =>
      rw [show joinSep sep (w :: w2 :: rest2) =
        w ++ sep ++ joinSep sep (w2 :: rest2) from rfl] at hc
      rcases List.mem_append.mp hc with h1 | h1
      · rcases List.mem_append.mp h1 with h2 | h2
        · exact Or.inr ⟨w, by simp, h2⟩
        · exact Or.inl h2
      · rcases ih c h1 with h | ⟨w3, hw3, hc3⟩
        · exact Or.inl h
        · exact Or.inr ⟨w3, by simp [hw3], hc3⟩

theorem joinSep_ne_nil (sep : Str) (w : Str) (ws : List Str) (hw : w ≠ []) :
    joinSep sep (w :: ws) ≠ [] := by
  cases ws with
  | nil => exact hw
  | cons w2 rest =>
    show w ++ sep ++ joinSep sep (w2 :: rest) ≠ []
    simp [hw]

theorem joinSep_head (sep : Str) (w : Str) (ws : List Str) (hw : w ≠ []) :
    (joinSep sep (w :: ws)).head? = w.head? := by
  cases ws with
  | nil => rfl
  | cons w2 rest =>
    show (w ++ sep ++ joinSep sep (w2 :: rest)).head? = w.head?
    cases w with
    | nil => exact absurd rfl hw
    | cons a t => rfl

theorem joinSep_getLast_ex (sep : Str) :
    ∀ ws : List Str, (∀ v ∈ ws, v ≠ []) → ws ≠ [] →
      ∃ w ∈ ws, (joinSep sep ws).getLast? = w.getLast? := by
  intro ws
  induction ws with
  | nil => intro _ h; exact absurd rfl h
  | cons w rest ih =>
    intro hall _
    cases rest with
    | nil => exact ⟨w, by simp, rfl⟩
    | cons w2 rest2 =>
      obtain ⟨w3, hw3, heq⟩ := ih (fun v hv => hall v (by simp [hv]))
        (by simp)
      refine ⟨w3, by simp [hw3], ?_⟩
      show (w ++ sep ++ joinSep sep (w2 :: rest2)).getLast? = _
      have hjne : joinSep sep (w2 :: rest2) ≠ [] :=
        joinSep_ne_nil sep w2 rest2 (hall w2 (by simp))
      rw [List.append_assoc,
        List.getLast?_append_of_ne_nil _
          (show sep ++ joinSep sep (w2 :: rest2) ≠ [] by simp [hjne]),
        List.getLast?_append_of_ne_nil _ hjne, heq]

theorem pyLstrip_eq_self_of_head (s : Str)
    (h : ∀ c, s.head? = some c → isSpace c = false) : pyLstrip s = s := by
  cases s with
  | nil => rfl
  | cons c cs =>
    unfold pyLstrip
    rw [List.dropWhile_cons, if_neg (by simp [h c rfl])]

theorem pyRstrip_eq_self_of_last (s : Str)
    (h : ∀ c, s.getLast? = some c → isSpace c = false) : pyRstrip s = s := by
  unfold pyRstrip
  cases hr : s.reverse with
  | nil =>
    simpa using (List.reverse_eq_nil_iff.mp hr).symm
  | cons c cs =>
    have hc : s.getLast? = some c := by
      rw [← List.head?_reverse, hr]
      rfl
    rw [List.dropWhile_cons, if_neg (by simp [h c hc])]
    rw [← hr, List.reverse_reverse]

theorem normalizeWs_words (text : Str) :
    ∀ w ∈ pySplitWs text, w ≠ [] ∧ ∀ c ∈ w, isSpace c = false ∧ c ∈ text := by
  intro w hw
  obtain ⟨hne, hall⟩ := pySplitWsAux_words text [] (by simp) w hw
  refine ⟨hne, fun c hc => ⟨(hall c hc).1, ?_⟩⟩
  rcases (hall c hc).2 with h | h
  · simp at h
  · exact h

theorem normalizeWs_stripped (text : Str) :
    pyStrip (normalizeWs text) = normalizeWs text := by
  cases hws : pySplitWs text with
  | nil =>
    unfold normalizeWs
    rw [hws]
    rfl
  | cons w rest =>
    have hwords := normalizeWs_words text
    rw [hws] at hwords
    have hwne : w ≠ [] := (hwords w (by simp)).1
    unfold normalizeWs pyStrip
    rw [hws]
    rw [pyLstrip_eq_self_of_head _ (fun c hc => ?_)]
    rw [pyRstrip_eq_self_of_last _ (fun c hc => ?_)]
    · obtain ⟨w3, hw3, heq⟩ := joinSep_getLast_ex [' '] (w :: rest)
        (fun v hv => (hwords v hv).1) (by simp)
      rw [heq] at hc
      exact ((hwords w3 hw3).2 c (List.mem_of_mem_getLast? hc)).1
    · rw [joinSep_head [' '] w rest hwne] at hc
      cases hwh : w with
      | nil => exact absurd hwh hwne
      | cons a t =>
        rw [hwh] at hc
        have hac : a = c := by simpa using hc
        subst hac
        exact ((hwords w (by simp)).2 a (by rw [hwh]; simp)).1

theorem normalizeWs_chars (text : Str) :
    ∀ c ∈ normalizeWs text, c = ' ' ∨ c ∈ text := by
  intro c hc
  rcases joinSep_chars [' '] (pySplitWs text) c hc with h | ⟨w, hw, hcw⟩
  · exact Or.inl (by simpa using h)
  · exact Or.inr ((normalizeWs_words text w hw).2 c hcw).2

theorem smart_reconstruct (cfg : SmartChunker.Config) (text : Str)
    (hcaps : ∀ c ∈ text, isUpperAZ c = false)
    (hne : normalizeWs text ≠ [])
    (hmax : (normalizeWs text).length ≤ cfg.max_size)
    (hmin : cfg.min_size ≤ (normalizeWs text).length) :
    SmartChunker.smart_chunk_text cfg text = some [normalizeWs text] ∧
      joinSep [' '] [normalizeWs text] = normalizeWs text := by
  refine ⟨?_, rfl⟩
  have hntcaps : ∀ c ∈ normalizeWs text, isUpperAZ c = false := by
    intro c hc
    rcases normalizeWs_chars text c hc with rfl | h
    · decide
    · exact hcaps c h
  have hsub : subPunctCap (normalizeWs text) = normalizeWs text :=
    subPunctCap_id _ hntcaps
  have hstrip : pyStrip (normalizeWs text) = normalizeWs text :=
    normalizeWs_stripped text
  have hnl : ∀ c ∈ normalizeWs text, ¬(c = '\n') := by
    intro c hc hcon
    subst hcon
    rcases normalizeWs_chars text _ hc with h | h
    · simp at h
    · rcases joinSep_chars [' '] (pySplitWs text) _ hc with h2 | ⟨w, hw, hcw⟩
      · simp at h2
      · have := ((normalizeWs_words text w hw).2 _ hcw).1
        simp [isSpace] at this
  have hscan := scanF_none_of_chars mParaBreak (fun c => ¬(c = '\n'))
    mParaBreak_none (normalizeWs text) ((normalizeWs text).length + 1) none hnl
  have hpara : splitNoGroups mParaBreak (normalizeWs text) =
      [normalizeWs text] := by
    unfold splitNoGroups scan
    rw [hscan]
    rfl
  have hcp : SmartChunker.chunk_paragraph cfg (pyStrip (normalizeWs text)) =
      some [normalizeWs text] := by
    rw [hstrip]
    unfold SmartChunker.chunk_paragraph
    rw [if_pos hmax]
  unfold SmartChunker.smart_chunk_text SmartChunker.chunksBeforeFilter
    SmartChunker.normalize_text
  rw [hsub, hpara]
  unfold SmartChunker.parasLoop
  rw [if_neg (show ¬((pyStrip (normalizeWs text)).isEmpty = true) by
    rw [hstrip]
    simpa [List.isEmpty_iff] using hne), hcp]
  dsimp only
  unfold SmartChunker.parasLoop
  simp [hstrip, hmin]

/-- C1 counterexample: reconstruction fails in two independent ways. On
"Hi." the smart chunker returns no chunks at all (the min_size filter
drops the only chunk), so the space-joined, whitespace-normalized
concatenation is empty while the whitespace-normalized input is "Hi.".
On 500 'x's the chunker returns two chunks of 400 and 100 characters,
neither dropped by the filter, yet the space join inserts a space inside
the word, so normalized reconstruction fails even with no chunk
dropped. -/
theorem C1_counterexample :
    (∃ l, SmartChunker.smart_chunk_text SmartChunker.defaultConfig
        ("Hi.".toList) = some l ∧
      normalizeWs (joinSep [' '] l) ≠ normalizeWs ("Hi.".toList)) ∧
    (∃ l, SmartChunker.smart_chunk_text SmartChunker.defaultConfig
        (List.replicate 500 'x') = some l ∧
      l.length = 2 ∧ (∀ c ∈ l, SmartChunker.defaultConfig.min_size ≤
        (pyStrip c).length) ∧
      normalizeWs (joinSep [' '] l) ≠
        normalizeWs (List.replicate 500 'x')) :=
  ⟨⟨[], rfl, by decide⟩,
   ⟨[List.replicate 400 'x', List.replicate 100 'x'], by decide, rfl,
    by decide, by decide⟩⟩

/-- C1: the reconstruction property holds only conditionally. For the
smart chunker, on capital-free input whose whitespace-normalized form is
non-empty, at most max_size long and at least min_size long, the result
is the single whitespace-normalized input chunk and joining reconstructs
it exactly; a genuinely split example with a permissive configuration
also reconstructs exactly. In general the final min_size filter drops
content (see the counterexample). -/
theorem C1_theorem :
    (∀ (cfg : SmartChunker.Config) (text : Str),
      (∀ c ∈ text, isUpperAZ c = false) →
      normalizeWs text ≠ [] →
      (normalizeWs text).length ≤ cfg.max_size →
      cfg.min_size ≤ (normalizeWs text).length →
      SmartChunker.smart_chunk_text cfg text = some [normalizeWs text] ∧
        joinSep [' '] [normalizeWs text] = normalizeWs text) ∧
    (SmartChunker.smart_chunk_text ⟨20, 25, 3⟩
        ("Hello there friend. Bye now mate.".toList) =
      some ["Hello there friend.".toList, "Bye now mate.".toList] ∧
    joinSep [' ']
        ["Hello there friend.".toList, "Bye now mate.".toList] =
      "Hello there friend. Bye now mate.".toList) :=
  ⟨smart_reconstruct, rfl, rfl⟩

/-- Concrete instantiation of the C1 conditional-reconstruction
theorem. -/
theorem C1_theorem_witness :
    SmartChunker.smart_chunk_text ⟨3, 50, 3⟩
        ("hello there. bye now.".toList) =
      some [normalizeWs ("hello there. bye now.".toList)] ∧
    joinSep [' '] [normalizeWs ("hello there. bye now.".toList)] =
      normalizeWs ("hello there. bye now.".toList) :=
  C1_theorem.1 ⟨3, 50, 3⟩ ("hello there. bye now.".toList)
    (by decide) (by decide) (by decide) (by decide)

/-! ## Claim C8: protect/restore round trip -/

theorem protectOne_nomatch (i : Nat) (m : Matcher) (text : Str)
    (h : findAll m text = []) :
    GoldStandardChunker.protectOne i m text = (text, []) := by
  have hfin : (scan m text).2 = text := by
    have hfl := scanF_flatten m (text.length + 1) none text
    unfold scan
    unfold flattenScan at hfl
    unfold findAll scan at h
    rw [h] at hfl
    simpa using hfl
  have hsc : scan m text = ([], text) := by
    have h1 : (scan m text).1 = [] := h
    cases hs : scan m text with
    | mk a b =>
      rw [hs] at h1 hfin
      simp only at h1 hfin
      rw [h1, hfin]
  unfold GoldStandardChunker.protectOne
  rw [hsc]
  rfl

theorem protectFold_nomatch :
    ∀ (l : List (Nat × Matcher)) (text : Str) (pm : List (Str × Str)),
      (∀ im ∈ l, findAll im.2 text = []) →
      l.foldl (fun acc im =>
        let r := GoldStandardChunker.protectOne im.1 im.2 acc.1
        (r.1, acc.2 ++ r.2)) (text, pm) = (text, pm) := by
  intro l
  induction l with
  | nil => intro text pm _; rfl
  | cons im rest ih =>
    intro text pm h
    rw [List.foldl_cons]
    have hone := protectOne_nomatch im.1 im.2 text (h im (by simp))
    dsimp only
    rw [hone]
    simpa using ih text pm (fun jm hjm => h jm (by simp [hjm]))

theorem protect_nomatch (lang : Language) (text : Str)
    (h : ∀ im ∈ (GoldStandardChunker.abbrevPatterns lang).enum,
      findAll im.2 text = []) :
    GoldStandardChunker.protect_abbreviations lang text = (text, []) := by
  unfold GoldStandardChunker.protect_abbreviations
  exact protectFold_nomatch _ text [] h

/-- C8 counterexample: a text that already contains the placeholder
string `__ABBREV_0_0__` is corrupted by the round trip, since restore
textually replaces every occurrence of each placeholder. -/
theorem C8_counterexample :
    GoldStandardChunker.restore_abbreviations
        (GoldStandardChunker.protect_abbreviations Language.english
          ("__ABBREV_0_0__ Dr. X".toList)).1
        (GoldStandardChunker.protect_abbreviations Language.english
          ("__ABBREV_0_0__ Dr. X".toList)).2 ≠
      "__ABBREV_0_0__ Dr. X".toList := by
  decide

/-- C8: protect-then-restore is the identity whenever no protected
pattern matches (protection is a no-op with an empty map), and it
round-trips on representative abbreviation-bearing texts of both
languages; it is not the identity for every text: a text that already
contains a placeholder-shaped substring is corrupted (counterexample). -/
theorem C8_theorem :
    (∀ (lang : Language) (text : Str),
      (∀ im ∈ (GoldStandardChunker.abbrevPatterns lang).enum,
        findAll im.2 text = []) →
      GoldStandardChunker.restore_abbreviations
          (GoldStandardChunker.protect_abbreviations lang text).1
          (GoldStandardChunker.protect_abbreviations lang text).2 = text) ∧
    GoldStandardChunker.restore_abbreviations
        (GoldStandardChunker.protect_abbreviations Language.english
          ("Dr. Smith met Mr. Jones etc. at 5 p.m. today.".toList)).1
        (GoldStandardChunker.protect_abbreviations Language.english
          ("Dr. Smith met Mr. Jones etc. at 5 p.m. today.".toList)).2 =
      "Dr. Smith met Mr. Jones etc. at 5 p.m. today.".toList ∧
    GoldStandardChunker.restore_abbreviations
        (GoldStandardChunker.protect_abbreviations Language.spanish
          ("La Dra. García y el Sr. López etc. llegaron.".toList)).1
        (GoldStandardChunker.protect_abbreviations Language.spanish
          ("La Dra. García y el Sr. López etc. llegaron.".toList)).2 =
      "La Dra. García y el Sr. López etc. llegaron.".toList := by
  refine ⟨?_, by decide, by decide⟩
  intro lang text h
  rw [protect_nomatch lang text h]
  rfl

/-- Concrete instantiation of the C8 no-match round-trip theorem. -/
theorem C8_theorem_witness :
    GoldStandardChunker.restore_abbreviations
        (GoldStandardChunker.protect_abbreviations Language.english
          ("hello world".toList)).1
        (GoldStandardChunker.protect_abbreviations Language.english
          ("hello world".toList)).2 = "hello world".toList :=
  C8_theorem.1 Language.english ("hello world".toList)
    (by set_option synthInstance.maxHeartbeats 2000000 in decide)

/-! ## Claim C6: min_size validation of candidate splits -/

/-- The sentence of the C6 counterexample: a comma+conjunction right at
its start, total length 158 ≥ target_size. -/
def c6sentence : Str := "Hi, and ".toList ++ List.replicate 150 'x'

/-- C6 counterexample: the gold-standard optimizer commits its
comma+conjunction split with *no* `min_size` check at all — on
`c6sentence` (with `min_chunk_size = 40`) it returns a first chunk of
only 3 characters. -/
theorem C6_counterexample :
    GoldStandardChunker.chunk_long_sentence ⟨150, 300, true, 40⟩ c6sentence =
      some ["Hi,".toList, "and ".toList ++ List.replicate 150 'x'] ∧
    ("Hi,".toList : Str).length < 40 := by
  exact ⟨by rfl, by decide⟩

namespace TTSOptimizedChunker

/-- Every split committed by the TTS pattern loop has both parts at
least `min_size` long. -/
theorem ttsTrySplitAux_min (cfg : Config) (s : Str) :
    ∀ pats a b, ttsTrySplitAux cfg s pats = some (a, b) →
      cfg.min_size ≤ a.length ∧ cfg.min_size ≤ b.length := by
  intro pats
  induction pats with
  | nil => intro a b h; simp [ttsTrySplitAux] at h
  | cons m rest ih =>
    intro a b h
    unfold ttsTrySplitAux at h
    split at h
    · exact ih a b h
    · dsimp only at h
      split at h
      · rename_i hval
        cases h
        simpa using hval
      · exact ih a b h

/-- If a class's best candidate fails the validation, the loop falls
through to the next-priority class. -/
theorem ttsTrySplitAux_fallthrough (cfg : Config) (s : Str)
    (m : Matcher) (rest : List Matcher) (e : Nat)
    (hp : pickBestMid s.length (matchEnds (findAll m s)) = some e)
    (hinval : ¬(cfg.min_size ≤ (pyStrip (s.take e)).length ∧
               cfg.min_size ≤ (pyStrip (s.drop e)).length)) :
    ttsTrySplitAux cfg s (m :: rest) = ttsTrySplitAux cfg s rest := by
  unfold ttsTrySplitAux
  simp only [hp]
  rw [if_neg (by simpa using hinval)]
  cases rest <;> rfl

/-- If no class yields a valid split, the optimizer falls back to plain
word splitting. -/
theorem ttsSplitLong_fallback (cfg : Config) (s : Str)
    (h : ttsTrySplit cfg s = none) :
    split_long_sentence_tts_safe cfg s = split_at_words cfg s := by
  unfold split_long_sentence_tts_safe
  rw [ttsSplitLongF, h]

end TTSOptimizedChunker

/-- C6 (amended): in the TTS optimizer
(`_split_long_sentence_tts_safe`), a candidate split is committed only if
both resulting parts have length at least `min_size`; when a class's
chosen candidate fails this condition the optimizer proceeds to the
next-priority class, and when every class fails it falls back to word
splitting.  The gold-standard `chunk_long_sentence`, by contrast, commits
its comma+conjunction split without any minimum-size check (see the
counterexample). -/
theorem C6_theorem :
    (∀ (cfg : TTSOptimizedChunker.Config) (s : Str) (a b : Str),
      TTSOptimizedChunker.ttsTrySplit cfg s = some (a, b) →
        cfg.min_size ≤ a.length ∧ cfg.min_size ≤ b.length) ∧
    (∀ (cfg : TTSOptimizedChunker.Config) (s : Str) (m : Matcher)
        (rest : List Matcher) (e : Nat),
      TTSOptimizedChunker.pickBestMid s.length
          (TTSOptimizedChunker.matchEnds (findAll m s)) = some e →
      ¬(cfg.min_size ≤ (pyStrip (s.take e)).length ∧
        cfg.min_size ≤ (pyStrip (s.drop e)).length) →
      TTSOptimizedChunker.ttsTrySplitAux cfg s (m :: rest) =
        TTSOptimizedChunker.ttsTrySplitAux cfg s rest) ∧
    (∀ (cfg : TTSOptimizedChunker.Config) (s : Str),
      TTSOptimizedChunker.ttsTrySplit cfg s = none →
      TTSOptimizedChunker.split_long_sentence_tts_safe cfg s =
        TTSOptimizedChunker.split_at_words cfg s) :=
  ⟨fun cfg s a b h => TTSOptimizedChunker.ttsTrySplitAux_min cfg s _ a b h,
   fun cfg s m rest e hp hv =>
     TTSOptimizedChunker.ttsTrySplitAux_fallthrough cfg s m rest e hp hv,
   fun cfg s h => TTSOptimizedChunker.ttsSplitLong_fallback cfg s h⟩

/-- C6 witness: the committed-split guarantee applied to a concrete
sentence split at its semicolon with `min_size = 5`. -/
theorem C6_theorem_witness :
    5 ≤ ("aaaaaa;".toList : Str).length ∧
    5 ≤ ("bbbbbbb".toList : Str).length :=
  C6_theorem.1 ⟨250, 300, 5⟩ ("aaaaaa; bbbbbbb".toList)
    ("aaaaaa;".toList) ("bbbbbbb".toList) (by rfl)

/-! ## Claim C9: configuration validation -/

/-- The `while` loop of `_force_split_sentence` never terminates with
`max_size = 0` on the sentence `"xy"`: no space is found before index 0,
so `split_pos = max_size = 0`, an empty chunk is appended and the
sentence never shrinks. -/
theorem smartLastResort_diverges (fuel : Nat) (chunks : List Str) :
    SmartChunker.lastResortF ⟨250, 0, 100⟩ fuel ("xy".toList) chunks = none := by
  induction fuel generalizing chunks with
  | zero => rfl
  | succ n ih =>
    show SmartChunker.lastResortF _ (n + 1) _ _ = none
    rw [SmartChunker.lastResortF]
    simp only [show (("xy".toList : Str)).length > (0 : Nat) by decide, if_pos]
    exact ih _

/-- `_force_split_sentence` itself diverges for `max_size = 0`. -/
theorem smartForceSplit_diverges (fuel : Nat) :
    SmartChunker.forceSplitF ⟨250, 0, 100⟩ fuel ("xy".toList) = none := by
  cases fuel with
  | zero => rfl
  | succ n =>
    rw [SmartChunker.forceSplitF]
    have h : SmartChunker.firstValidBp ⟨250, 0, 100⟩ ("xy".toList)
        SmartChunker.smartBreakPoints = none := by decide
    rw [h]
    exact smartLastResort_diverges (n + 1) []

/-- The `while` loop of the gold `chunk_long_sentence` also never
terminates with `max_size = 0`. -/
theorem goldChunkLongLoop_diverges (fuel : Nat) (chunks : List Str) :
    GoldStandardChunker.chunkLongLoopF ⟨150, 0, true, 40⟩ fuel
      ("xy".toList) chunks = none := by
  induction fuel generalizing chunks with
  | zero => rfl
  | succ n ih =>
    rw [GoldStandardChunker.chunkLongLoopF]
    simp only [show (!(("xy".toList : Str)).isEmpty &&
        (("xy".toList : Str)).length > (0 : Nat)) = true by decide, if_pos]
    have h : GoldStandardChunker.find_optimal_break_point ("xy".toList) 0 = 0 := by
      decide
    rw [h]
    exact ih _

/-- C9 counterexample: both constructors accept configurations that
violate `min_size < target_size ≤ max_size` and the resulting engines
chunk normally — construction never fails.  Here `SmartChunker` is built
with `min_size = 300 > target_size = 250` and `GoldStandardChunker` with
`min_chunk_size = 250 ≥ target_size = 200 > max_size = 100`, and both
calls return an ordinary value instead of raising anything. -/
theorem C9_counterexample :
    SmartChunker.smart_chunk_text ⟨250, 400, 300⟩ ("Hi. Bye.".toList) =
      some [] ∧
    GoldStandardChunker.gold_standard_chunk_text ⟨200, 100, true, 250⟩
        ("Hi.".toList) = some ["Hi.".toList] := by
  constructor <;> rfl

/-- C9 (amended): neither constructor validates the size ordering — any
configuration yields a working engine and no `InvalidConfiguration`
error exists anywhere in the code — and chunking calls are not protected
from bad configurations at call time either: with `max_size = 0` the
forced-split loops of both chunkers run forever (the fuelled loops return
`none` for every fuel), so `smart_chunk_text` never returns. -/
theorem C9_theorem :
    (∀ fuel : Nat,
      SmartChunker.forceSplitF ⟨250, 0, 100⟩ fuel ("xy".toList) = none) ∧
    (∀ fuel : Nat, ∀ chunks : List Str,
      GoldStandardChunker.chunkLongLoopF ⟨150, 0, true, 40⟩ fuel
        ("xy".toList) chunks = none) ∧
    SmartChunker.smart_chunk_text ⟨250, 0, 100⟩ ("xy".toList) = none := by
  refine ⟨smartForceSplit_diverges, goldChunkLongLoop_diverges, ?_⟩
  show (SmartChunker.chunksBeforeFilter _ _).map _ = none
  have h : SmartChunker.chunksBeforeFilter ⟨250, 0, 100⟩ ("xy".toList) = none := by
    show SmartChunker.parasLoop _ _ _ = none
    have hp : splitNoGroups mParaBreak
        (SmartChunker.normalize_text ("xy".toList)) = [("xy".toList)] := by decide
    rw [hp]
    show (if (pyStrip ("xy".toList)).isEmpty then _ else _) = none
    simp only [show (pyStrip ("xy".toList)).isEmpty = false by decide,
      Bool.false_eq_true, if_false]
    have hc : SmartChunker.chunk_paragraph ⟨250, 0, 100⟩
        (pyStrip ("xy".toList)) = none := by
      show (if _ then _ else _) = none
      simp only [show ((pyStrip ("xy".toList)).length ≤ (0:Nat)) = False by simp; decide,
        if_false]
      have hs : SmartChunker.split_sentences (pyStrip ("xy".toList)) =
          [("xy".toList)] := by decide
      rw [hs]
      show SmartChunker.chunkParaLoop _ _ _ _ = none
      rw [SmartChunker.chunkParaLoop]
      simp only [show (("xy".toList : Str)).length > (0:Nat) by decide, if_pos]
      rw [show SmartChunker.force_split_sentence ⟨250, 0, 100⟩ ("xy".toList) =
          none from smartForceSplit_diverges _]
    rw [hc]
  rw [h]
  rfl

end SpeechTools
